import Mathlib

/-!
# Graph parser (`src/SnooPHP/Model/graphparser.c`)

A shallow embedding of the recursive-descent translator `S`/`E`/`W` and of
`main`, followed by theorems about it.

Modelling conventions.

* The C string `input` is a `List Char` holding the characters before the
  terminating NUL; reading `input[cc]` at or after the end yields NUL.  One
  list element stands for one C `char`; an element outside ASCII is, like a
  byte above 127, in none of the character classes the rules test.
* `cc` is a C `int`, modelled by `Nat`: it starts at 0, only `next`
  changes it, and it is shown never to pass the length of the string.
* The globals `cc` and the standard output are the two fields of `State`;
  every function threads the state explicitly.
* The global `logLevel` is only ever read, so it is a parameter `lg`.
* `S` and `E` are mutually recursive and `W` contains a `while` loop: each
  takes a fuel argument and returns `none` when the fuel is exhausted.
  `main` supplies `input.length + 3`, which is shown to be always enough.
-/

namespace GraphParser

/-! ## Constants -/

def VALID : Int := 1
def ERR_NO_INPUT : Int := -1
def ERR_INVALID_INPUT : Int := -2

def LOG_NONE : Int := 0
def LOG_ALL : Int := 1

/-! ## Global state -/

/-- The mutable globals: the cursor `cc` and the text written to stdout. -/
structure State where
  cc : Nat
  out : List Char
deriving DecidableEq, Repr

/-- The terminating NUL character of a C string. -/
def NUL : Char := Char.ofNat 0

/-- `curr`: the character `input[cc]` (NUL at the end of the string). -/
def curr (input : List Char) (st : State) : Char :=
  input.getD st.cc NUL

/-- `next`: `cc++`. -/
def next (st : State) : State :=
  { st with cc := st.cc + 1 }

/-- `printf`: append text to standard output. -/
def printf (text : List Char) (st : State) : State :=
  { st with out := st.out ++ text }

/-- `_log`: print the text only when the log level is `LOG_ALL`. -/
def _log (lg : Int) (text : List Char) (st : State) : State :=
  if lg = LOG_ALL then printf text st else st

/-- The condition guarding the first character in `W` (line 140). -/
def isWStart (c : Char) : Bool :=
  (c ≥ 'A' && c ≤ 'Z') || (c ≥ 'a' && c ≤ 'z') || c = '_'

/-- The condition of the `while` loop in `W` (line 144). -/
def isWCont (c : Char) : Bool :=
  (c ≥ 'A' && c ≤ 'Z') || (c ≥ 'a' && c ≤ 'z') || c = '_' || (c ≥ '0' && c ≤ '9')

/-! ## Automatons -/

/-- The `while` loop of `W` (lines 144-148). -/
def W_loop (input : List Char) : Nat → State → Option State
  | 0, _ => none
  | fuel + 1, st =>
    if isWCont (curr input st) then
      W_loop input fuel (next (printf [curr input st] st))
    else
      some st

/-- `W`: one identifier `[A-Za-z_][A-Za-z0-9_]*`, echoed as it is read. -/
def W (lg : Int) (input : List Char) (fuel : Nat) (st : State) : Option (Int × State) :=
  let st := _log lg "called W\n".toList st
  if isWStart (curr input st) then
    let st := next (printf [curr input st] st)
    match W_loop input fuel st with
    | none => none
    | some st => some (VALID, st)
  else
    some (ERR_INVALID_INPUT, st)

mutual

/-- `S`: an edge, optionally followed by a separator and another sequence. -/
def S (lg : Int) (input : List Char) : Nat → State → Option (Int × State)
  | 0, _ => none
  | fuel + 1, st =>
    let st := _log lg "called S\n".toList st
    match E lg input fuel st with
    | none => none
    | some (r, st) =>
      if r = VALID then
        if curr input st = '|' || curr input st = ',' then
          let st := next (printf [','] st)
          match S lg input fuel st with
          | none => none
          | some (r, st) =>
            if r = VALID then some (VALID, st)
            else some (ERR_INVALID_INPUT, st)
        else
          some (VALID, st)
      else
        some (ERR_INVALID_INPUT, st)

/-- `E`: an identifier, optionally followed by a parenthesised sequence. -/
def E (lg : Int) (input : List Char) : Nat → State → Option (Int × State)
  | 0, _ => none
  | fuel + 1, st =>
    let st := printf ['"'] (_log lg "called E\n".toList st)
    match W lg input fuel st with
    | none => none
    | some (r, st) =>
      if r = VALID then
        let st := printf ['"', ':'] st
        if curr input st = '(' then
          let st := next (printf ['{'] st)
          match S lg input fuel st with
          | none => none
          | some (r, st) =>
            if r = VALID then
              if curr input st = ')' then
                some (VALID, next (printf ['}'] st))
              else
                some (ERR_INVALID_INPUT, st)
            else
              some (ERR_INVALID_INPUT, st)
        else
          some (VALID, printf ['{', '}'] st)
      else
        some (ERR_INVALID_INPUT, st)

end

/-- `main`: `args` models `argv[1..]`, so `argc < 2` is `args = []`.  The
result pairs the exit code with everything written to standard output.
`argv[1]` is never `NULL` when `argc ≥ 2`, so the guard on line 68 holds. -/
def main (lg : Int) (args : List (List Char)) : Option (Int × List Char) :=
  match args with
  | [] =>
    let st := _log lg "error: no input found!".toList { cc := 0, out := [] }
    some (ERR_NO_INPUT, st.out)
  | input :: _ =>
    let st : State := { cc := 0, out := [] }
    let st := printf ['{'] st
    match S lg input (input.length + 3) st with
    | none => none
    | some (result, st) =>
      let st := printf ['}'] st
      let st := _log lg (if result = VALID then "string accepted\n".toList
        else "invalid input\n".toList) st
      some (result, st.out)


/-- The top-level parse as `main` runs it: the result code, the final cursor
and the text emitted by `S` (without the braces that `main` adds). -/
def parse (lg : Int) (input : List Char) : Option (Int × State) :=
  S lg input (input.length + 3) { cc := 0, out := [] }

/-! ## Specification vocabulary -/

/-- The run of identifier characters starting at position `p`. -/
def identRun (input : List Char) (p : Nat) : List Char :=
  (input.drop p).takeWhile isWCont

/-- A string matching `[A-Za-z_][A-Za-z0-9_]*`. -/
def isIdentifier : List Char → Bool
  | [] => false
  | c :: cs => isWStart c && cs.all isWCont

/-- A separator character of the source language. -/
def isSep (c : Char) : Bool :=
  c = '|' || c = ','

mutual

/-- An edge of the source language: a name with an optional non-empty
nested list of edges. -/
inductive Edge where
  | leaf (name : List Char)
  | node (name : List Char) (children : Forest)

/-- A non-empty list of edges; `pipe` records which separator was written
(`true` for the pipe, `false` for the comma). -/
inductive Forest where
  | single (e : Edge)
  | cons (e : Edge) (pipe : Bool) (rest : Forest)

end

/-- The separator character chosen at one position. -/
def sepChar (pipe : Bool) : Char :=
  if pipe then '|' else ','

mutual

/-- Source rendering of an edge: `name` or `name(children)`. -/
def Edge.render : Edge → List Char
  | .leaf name => name
  | .node name children => name ++ '(' :: (children.render ++ [')'])

/-- Source rendering of a forest: the edges joined by the chosen separators. -/
def Forest.render : Forest → List Char
  | .single e => e.render
  | .cons e pipe rest => e.render ++ sepChar pipe :: rest.render

end

mutual

/-- Translation of an edge: `"name":{children}`, a leaf being `"name":{}`. -/
def Edge.translate : Edge → List Char
  | .leaf name => '"' :: (name ++ ['"', ':', '{', '}'])
  | .node name children =>
    '"' :: (name ++ '"' :: ':' :: '{' :: (children.translate ++ ['}']))

/-- Translation of a forest: the translated edges joined by commas. -/
def Forest.translate : Forest → List Char
  | .single e => e.translate
  | .cons e _ rest => e.translate ++ ',' :: rest.translate

end

mutual

/-- Every name in the edge is an identifier. -/
def Edge.wellFormed : Edge → Bool
  | .leaf name => isIdentifier name
  | .node name children => isIdentifier name && children.wellFormed

/-- Every name in the forest is an identifier. -/
def Forest.wellFormed : Forest → Bool
  | .single e => e.wellFormed
  | .cons e _ rest => e.wellFormed && rest.wellFormed

end

/-! ## Big-step view of the automatons -/

/-- Which of the two mutually recursive automatons is running. -/
inductive Rule where
  | seq
  | edge
deriving DecidableEq

/-- The call `W(input)` from state `st` returns `r` (with enough fuel). -/
def WRes (lg : Int) (input : List Char) (st : State) (r : Int × State) : Prop :=
  ∃ f, W lg input f st = some r

/-- Big-step relation following the control flow of `S` and `E` line by
line; it is shown below to coincide with the fuelled functions. -/
inductive Run (lg : Int) (input : List Char) : Rule → State → Int × State → Prop
  | edgeNoIdent {st : State} {r1 : Int} {st1 : State} :
    WRes lg input (printf ['"'] (_log lg "called E\n".toList st)) (r1, st1) →
    r1 ≠ VALID →
    Run lg input Rule.edge st (ERR_INVALID_INPUT, st1)
  | edgeLeaf {st : State} {st1 : State} :
    WRes lg input (printf ['"'] (_log lg "called E\n".toList st)) (VALID, st1) →
    curr input st1 ≠ '(' →
    Run lg input Rule.edge st (VALID, printf ['{', '}'] (printf ['"', ':'] st1))
  | edgeNode {st : State} {st1 st2 : State} :
    WRes lg input (printf ['"'] (_log lg "called E\n".toList st)) (VALID, st1) →
    curr input st1 = '(' →
    Run lg input Rule.seq (next (printf ['{'] (printf ['"', ':'] st1))) (VALID, st2) →
    curr input st2 = ')' →
    Run lg input Rule.edge st (VALID, next (printf ['}'] st2))
  | edgeNoClose {st : State} {st1 st2 : State} :
    WRes lg input (printf ['"'] (_log lg "called E\n".toList st)) (VALID, st1) →
    curr input st1 = '(' →
    Run lg input Rule.seq (next (printf ['{'] (printf ['"', ':'] st1))) (VALID, st2) →
    curr input st2 ≠ ')' →
    Run lg input Rule.edge st (ERR_INVALID_INPUT, st2)
  | edgeInnerFail {st : State} {st1 : State} {r2 : Int} {st2 : State} :
    WRes lg input (printf ['"'] (_log lg "called E\n".toList st)) (VALID, st1) →
    curr input st1 = '(' →
    Run lg input Rule.seq (next (printf ['{'] (printf ['"', ':'] st1))) (r2, st2) →
    r2 ≠ VALID →
    Run lg input Rule.edge st (ERR_INVALID_INPUT, st2)
  | seqFail {st : State} {r1 : Int} {st1 : State} :
    Run lg input Rule.edge (_log lg "called S\n".toList st) (r1, st1) →
    r1 ≠ VALID →
    Run lg input Rule.seq st (ERR_INVALID_INPUT, st1)
  | seqLast {st : State} {st1 : State} :
    Run lg input Rule.edge (_log lg "called S\n".toList st) (VALID, st1) →
    isSep (curr input st1) = false →
    Run lg input Rule.seq st (VALID, st1)
  | seqMore {st : State} {st1 st2 : State} :
    Run lg input Rule.edge (_log lg "called S\n".toList st) (VALID, st1) →
    isSep (curr input st1) = true →
    Run lg input Rule.seq (next (printf [','] st1)) (VALID, st2) →
    Run lg input Rule.seq st (VALID, st2)
  | seqMoreFail {st : State} {st1 : State} {r2 : Int} {st2 : State} :
    Run lg input Rule.edge (_log lg "called S\n".toList st) (VALID, st1) →
    isSep (curr input st1) = true →
    Run lg input Rule.seq (next (printf [','] st1)) (r2, st2) →
    r2 ≠ VALID →
    Run lg input Rule.seq st (ERR_INVALID_INPUT, st2)

/-- The fuelled function behind a rule. -/
def runFn (lg : Int) (input : List Char) : Rule → Nat → State → Option (Int × State)
  | Rule.seq => S lg input
  | Rule.edge => E lg input

/-- The facts about one call that every later proof uses: the result code is
one of the two parse codes, the cursor never moves back, it moves forward on
success, and it stays inside the string. -/
def CallOk (input : List Char) (st : State) (r : Int × State) : Prop :=
  (r.1 = VALID ∨ r.1 = ERR_INVALID_INPUT) ∧ st.cc ≤ r.2.cc ∧
    (r.1 = VALID → st.cc < r.2.cc) ∧ r.2.cc ≤ max st.cc input.length

/-- Fuel that is always enough for a rule started at cursor `p`. -/
def fuelNeeded (input : List Char) : Rule → Nat → Nat
  | Rule.seq, p => input.length - p + 3
  | Rule.edge, p => input.length - p + 2

/-- Between the states `st` and `s` the cursor moved over exactly the text
`src`, and exactly the text `trans` was written. -/
def Consumed (input : List Char) (st s : State) (src trans : List Char) : Prop :=
  input.drop st.cc = src ++ input.drop s.cc ∧ s.cc = st.cc + src.length ∧
    s.out = st.out ++ trans

/-- The rule read the rendering of a well-formed forest (for `S`) or edge
(for `E`) and wrote its translation. -/
def Recognised (input : List Char) : Rule → State → State → Prop
  | Rule.seq, st, s =>
    ∃ fr : Forest, fr.wellFormed = true ∧ Consumed input st s fr.render fr.translate
  | Rule.edge, st, s =>
    ∃ e : Edge, e.wellFormed = true ∧ Consumed input st s e.render e.translate

/-- The same state with extra text already on standard output. -/
def framed (pre : List Char) (st : State) : State :=
  { cc := st.cc, out := pre ++ st.out }

/-- Lift `framed` to the result of a call. -/
def framedRes (pre : List Char) (r : Int × State) : Int × State :=
  (r.1, framed pre r.2)

/-! ## The output grammar of the specification -/

mutual

/-- Output grammar, `Sequence := Edge (',' Sequence)?`. -/
inductive OutSequence : List Char → Prop
  | one {e : List Char} : OutEdge e → OutSequence e
  | more {e s : List Char} : OutEdge e → OutSequence s → OutSequence (e ++ ',' :: s)

/-- Output grammar, `Edge := '"' Identifier '"' ':' ( '{' Sequence '}' | '{}' )`. -/
inductive OutEdge : List Char → Prop
  | leaf {name : List Char} :
    isIdentifier name = true → OutEdge ('"' :: (name ++ ['"', ':', '{', '}']))
  | node {name s : List Char} :
    isIdentifier name = true → OutSequence s →
    OutEdge ('"' :: (name ++ '"' :: ':' :: '{' :: (s ++ ['}'])))

end

/-- Output grammar, `Document := '{' Sequence '}'`. -/
def OutDocument (t : List Char) : Prop :=
  ∃ s, OutSequence s ∧ t = '{' :: (s ++ ['}'])

/-- The forest written `A(B,C)`. -/
def forestABC : Forest :=
  Forest.single (Edge.node ['A']
    (Forest.cons (Edge.leaf ['B']) false (Forest.single (Edge.leaf ['C']))))

/-- The forest written `A(B(C(D)))`. -/
def forestABCD : Forest :=
  Forest.single (Edge.node ['A'] (Forest.single (Edge.node ['B']
    (Forest.single (Edge.node ['C'] (Forest.single (Edge.leaf ['D'])))))))

/-- Replace the pipe by the comma. -/
def normChar (c : Char) : Char :=
  if c = '|' then ',' else c

/-- Replace every pipe of a string by a comma. -/
def normSep (input : List Char) : List Char :=
  input.map normChar

/-- The characters the rules can write at log level `LOG_NONE`: identifier
characters and the five punctuation marks of the output. -/
def isOutChar (c : Char) : Bool :=
  isWCont c || c = '"' || c = ':' || c = '{' || c = '}' || c = ','

/-- The output `o2` is `o1` followed by characters the rules can write. -/
def Extends (o1 o2 : List Char) : Prop :=
  ∃ d, o2 = o1 ++ d ∧ ∀ c ∈ d, isOutChar c = true

/-- The status line that belongs to a non-success run: the text logged when
no argument is supplied, or the text logged when the parse fails. -/
def statusLine (args : List (List Char)) : List Char :=
  match args with
  | [] => "error: no input found!".toList
  | _ :: _ => "invalid input".toList

/-! ## Instrumented automatons

The same rules once more, with a ghost trace that records every index read
through `curr` and every position from which `next` advances.  A condition
that calls `curr` several times reads the same index each time and is
recorded once.  Erasing the trace gives back `W_loop`, `W`, `S` and `E`. -/

/-- What the cursor helpers do: `curr` reads index `k`, or `next` advances
from position `k` to `k + 1`. -/
inductive Event where
  | read (k : Nat)
  | adv (k : Nat)
deriving DecidableEq, Repr

/-- A state together with the trace of cursor events so far. -/
structure TState where
  st : State
  trace : List Event
deriving DecidableEq, Repr

/-- Record a call of `curr` at the current position. -/
def readT (ts : TState) : TState :=
  { ts with trace := ts.trace ++ [Event.read ts.st.cc] }

/-- `next`, recorded. -/
def nextT (ts : TState) : TState :=
  { st := next ts.st, trace := ts.trace ++ [Event.adv ts.st.cc] }

/-- `printf` on an instrumented state. -/
def printfT (text : List Char) (ts : TState) : TState :=
  { ts with st := printf text ts.st }

/-- `_log` on an instrumented state. -/
def logT (lg : Int) (text : List Char) (ts : TState) : TState :=
  { ts with st := _log lg text ts.st }

/-- The `while` loop of `W`, instrumented. -/
def W_loopT (input : List Char) : Nat → TState → Option TState
  | 0, _ => none
  | fuel + 1, ts =>
    let ts := readT ts
    if isWCont (curr input ts.st) then
      let ts := readT ts
      W_loopT input fuel (nextT (printfT [curr input ts.st] ts))
    else
      some ts

/-- `W`, instrumented. -/
def WT (lg : Int) (input : List Char) (fuel : Nat) (ts : TState) : Option (Int × TState) :=
  let ts := logT lg "called W\n".toList ts
  let ts := readT ts
  if isWStart (curr input ts.st) then
    let ts := readT ts
    let ts := nextT (printfT [curr input ts.st] ts)
    match W_loopT input fuel ts with
    | none => none
    | some ts => some (VALID, ts)
  else
    some (ERR_INVALID_INPUT, ts)

mutual

/-- `S`, instrumented. -/
def ST (lg : Int) (input : List Char) : Nat → TState → Option (Int × TState)
  | 0, _ => none
  | fuel + 1, ts =>
    let ts := logT lg "called S\n".toList ts
    match ET lg input fuel ts with
    | none => none
    | some (r, ts) =>
      if r = VALID then
        let ts := readT ts
        if curr input ts.st = '|' || curr input ts.st = ',' then
          let ts := nextT (printfT [','] ts)
          match ST lg input fuel ts with
          | none => none
          | some (r, ts) =>
            if r = VALID then some (VALID, ts)
            else some (ERR_INVALID_INPUT, ts)
        else
          some (VALID, ts)
      else
        some (ERR_INVALID_INPUT, ts)

/-- `E`, instrumented. -/
def ET (lg : Int) (input : List Char) : Nat → TState → Option (Int × TState)
  | 0, _ => none
  | fuel + 1, ts =>
    let ts := printfT ['"'] (logT lg "called E\n".toList ts)
    match WT lg input fuel ts with
    | none => none
    | some (r, ts) =>
      if r = VALID then
        let ts := printfT ['"', ':'] ts
        let ts := readT ts
        if curr input ts.st = '(' then
          let ts := nextT (printfT ['{'] ts)
          match ST lg input fuel ts with
          | none => none
          | some (r, ts) =>
            if r = VALID then
              let ts := readT ts
              if curr input ts.st = ')' then
                some (VALID, nextT (printfT ['}'] ts))
              else
                some (ERR_INVALID_INPUT, ts)
            else
              some (ERR_INVALID_INPUT, ts)
        else
          some (VALID, printfT ['{', '}'] ts)
      else
        some (ERR_INVALID_INPUT, ts)

end

/-- Forget the trace of a result. -/
def eraseRes (r : Int × TState) : Int × State :=
  (r.1, r.2.st)

/-- The top-level parse, instrumented: `S` from cursor 0 with an empty
trace and the fuel that `main` supplies. -/
def parseT (lg : Int) (input : List Char) : Option (Int × TState) :=
  ST lg input (input.length + 3) { st := { cc := 0, out := [] }, trace := [] }

/-- Every `next` in the trace advances from an index that `curr` has read
before (`seen` lists the indices read so far). -/
def guardedFrom : List Nat → List Event → Bool
  | _, [] => true
  | seen, Event.read k :: es => guardedFrom (k :: seen) es
  | seen, Event.adv k :: es => decide (k ∈ seen) && guardedFrom seen es

/-- The characters on which some `next` is conditioned: identifier
characters, the two parentheses and the two separators. -/
def isLangChar (c : Char) : Bool :=
  isWCont c || c = '(' || c = ')' || isSep c

/-- The number of `next` events in a trace. -/
def advances : List Event → Nat
  | [] => 0
  | Event.read _ :: es => advances es
  | Event.adv _ :: es => advances es + 1

/-- What one call adds to the trace, from `ts` to `t`: the cursor does not
move back; it moved by exactly one position per recorded `next`; reads happen
between the old and the new cursor position; every advance is from a
position below the new cursor that holds a character of the language (so
never from the terminator); and every advance follows a read of the same
index inside the same call. -/
def TraceOk (input : List Char) (ts t : TState) : Prop :=
  ts.st.cc ≤ t.st.cc ∧
  ∃ d, t.trace = ts.trace ++ d ∧ t.st.cc = ts.st.cc + advances d ∧
    (∀ k, Event.read k ∈ d → ts.st.cc ≤ k ∧ k ≤ t.st.cc) ∧
    (∀ k, Event.adv k ∈ d →
      ts.st.cc ≤ k ∧ k < t.st.cc ∧ isLangChar (input.getD k NUL) = true) ∧
    ∀ seen, guardedFrom seen d = true

/-- How the emitted text reflects the result: after success the double
quotes are paired and the braces balanced; after failure no closing brace is
unmatched, and a double quote is unpaired or an opening brace is unclosed. -/
def Shape (r : Int) (d : List Char) : Prop :=
  (r = VALID → d.count '"' % 2 = 0 ∧ d.count '{' = d.count '}') ∧
  (r ≠ VALID → d.count '}' ≤ d.count '{' ∧
    (d.count '"' % 2 = 1 ∨ d.count '}' < d.count '{'))

/-- The source text of one output character read on its own: quotes and
colons vanish, braces become parentheses, anything else is kept. -/
def unChar (c : Char) : List Char :=
  if c = '"' ∨ c = ':' then []
  else if c = '{' then ['(']
  else if c = '}' then [')']
  else [c]

/-- Read a translation back as source text with comma separators: the empty
brace pair of a leaf vanishes, every other character goes through
`unChar`. -/
def untranslate : List Char → List Char
  | [] => []
  | [c] => unChar c
  | c :: d :: rest =>
    if c = '{' ∧ d = '}' then untranslate rest
    else unChar c ++ untranslate (d :: rest)

/-! ## Basic facts -/

@[simp] theorem log_none (text : List Char) (st : State) : _log LOG_NONE text st = st := by
  simp [_log, LOG_NONE, LOG_ALL]

@[simp] theorem log_cc (lg : Int) (text : List Char) (st : State) :
    (_log lg text st).cc = st.cc := by
  unfold _log printf; split <;> rfl

@[simp] theorem curr_log (lg : Int) (input text : List Char) (st : State) :
    curr input (_log lg text st) = curr input st := by
  simp [curr]

@[simp] theorem printf_cc (text : List Char) (st : State) : (printf text st).cc = st.cc := rfl

@[simp] theorem printf_out (text : List Char) (st : State) :
    (printf text st).out = st.out ++ text := rfl

@[simp] theorem next_cc (st : State) : (next st).cc = st.cc + 1 := rfl

@[simp] theorem next_out (st : State) : (next st).out = st.out := rfl

@[simp] theorem curr_printf (input text : List Char) (st : State) :
    curr input (printf text st) = curr input st := rfl

theorem S_succ (lg : Int) (input : List Char) (fuel : Nat) (st : State) :
    S lg input (fuel + 1) st =
      match E lg input fuel (_log lg "called S\n".toList st) with
      | none => none
      | some (r, st) =>
        if r = VALID then
          if curr input st = '|' || curr input st = ',' then
            match S lg input fuel (next (printf [','] st)) with
            | none => none
            | some (r, st) =>
              if r = VALID then some (VALID, st)
              else some (ERR_INVALID_INPUT, st)
          else
            some (VALID, st)
        else
          some (ERR_INVALID_INPUT, st) := by
  rw [S]

theorem E_succ (lg : Int) (input : List Char) (fuel : Nat) (st : State) :
    E lg input (fuel + 1) st =
      match W lg input fuel (printf ['"'] (_log lg "called E\n".toList st)) with
      | none => none
      | some (r, st) =>
        if r = VALID then
          if curr input (printf ['"', ':'] st) = '(' then
            match S lg input fuel (next (printf ['{'] (printf ['"', ':'] st))) with
            | none => none
            | some (r, st) =>
              if r = VALID then
                if curr input st = ')' then
                  some (VALID, next (printf ['}'] st))
                else
                  some (ERR_INVALID_INPUT, st)
              else
                some (ERR_INVALID_INPUT, st)
          else
            some (VALID, printf ['{', '}'] (printf ['"', ':'] st))
        else
          some (ERR_INVALID_INPUT, st) := by
  rw [E]

/-! ## Fuel monotonicity -/

theorem W_loop_mono (input : List Char) :
    ∀ (f : Nat) (st r : State), W_loop input f st = some r →
      ∀ f', f ≤ f' → W_loop input f' st = some r := by
  intro f
  induction f with
  | zero => intro st r h; simp [W_loop] at h
  | succ f ih =>
    intro st r h f' hf
    obtain ⟨g, rfl⟩ : ∃ g, f' = g + 1 := ⟨f' - 1, by omega⟩
    rw [W_loop] at h ⊢
    split at h
    · rename_i hc
      rw [if_pos hc]
      exact ih _ _ h g (by omega)
    · rename_i hc
      rw [if_neg hc]
      exact h

theorem W_mono (lg : Int) (input : List Char) (f : Nat) (st : State) (r : Int × State)
    (h : W lg input f st = some r) (f' : Nat) (hf : f ≤ f') : W lg input f' st = some r := by
  unfold W at h ⊢
  simp only at h ⊢
  split at h
  · rename_i hc
    rw [if_pos hc]
    cases hl : W_loop input f (next (printf [curr input (_log lg "called W\n".toList st)]
        (_log lg "called W\n".toList st))) with
    | none => rw [hl] at h; simp at h
    | some s1 =>
      rw [hl] at h
      rw [W_loop_mono input f _ _ hl f' hf]
      exact h
  · rename_i hc
    rw [if_neg hc]
    exact h

theorem S_E_mono (lg : Int) (input : List Char) :
    ∀ f : Nat,
      (∀ st r, S lg input f st = some r → ∀ f', f ≤ f' → S lg input f' st = some r) ∧
      (∀ st r, E lg input f st = some r → ∀ f', f ≤ f' → E lg input f' st = some r) := by
  intro f
  induction f with
  | zero => constructor <;> intro st r h <;> simp [S, E] at h
  | succ f ih =>
    obtain ⟨ihS, ihE⟩ := ih
    constructor
    · intro st r h f' hf
      obtain ⟨g, rfl⟩ : ∃ g, f' = g + 1 := ⟨f' - 1, by omega⟩
      have hg : f ≤ g := by omega
      rw [S_succ] at h ⊢
      cases hE : E lg input f (_log lg "called S\n".toList st) with
      | none => rw [hE] at h; simp at h
      | some p =>
        obtain ⟨r1, st1⟩ := p
        rw [hE] at h
        rw [ihE _ _ hE g hg]
        simp only at h ⊢
        by_cases hr : r1 = VALID
        · rw [if_pos hr] at h ⊢
          by_cases hc : (curr input st1 = '|' || curr input st1 = ',') = true
          · rw [if_pos hc] at h ⊢
            cases hS : S lg input f (next (printf [','] st1)) with
            | none => rw [hS] at h; simp at h
            | some p2 =>
              rw [hS] at h
              rw [ihS _ _ hS g hg]
              exact h
          · rw [if_neg hc] at h ⊢
            exact h
        · rw [if_neg hr] at h ⊢
          exact h
    · intro st r h f' hf
      obtain ⟨g, rfl⟩ : ∃ g, f' = g + 1 := ⟨f' - 1, by omega⟩
      have hg : f ≤ g := by omega
      rw [E_succ] at h ⊢
      cases hW : W lg input f (printf ['"'] (_log lg "called E\n".toList st)) with
      | none => rw [hW] at h; simp at h
      | some p =>
        obtain ⟨r1, st1⟩ := p
        rw [hW] at h
        rw [W_mono lg input f _ _ hW g hg]
        simp only at h ⊢
        by_cases hr : r1 = VALID
        · rw [if_pos hr] at h ⊢
          by_cases hc : curr input (printf ['"', ':'] st1) = '('
          · rw [if_pos hc] at h ⊢
            cases hS : S lg input f (next (printf ['{'] (printf ['"', ':'] st1))) with
            | none => rw [hS] at h; simp at h
            | some p2 =>
              rw [hS] at h
              rw [ihS _ _ hS g hg]
              exact h
          · rw [if_neg hc] at h ⊢
            exact h
        · rw [if_neg hr] at h ⊢
          exact h

/-! ## The identifier automaton -/

theorem isWCont_NUL : isWCont NUL = false := by decide

theorem isWStart_NUL : isWStart NUL = false := by decide

theorem isWCont_of_isWStart (c : Char) (h : isWStart c = true) : isWCont c = true := by
  unfold isWStart at h
  unfold isWCont
  rw [h]
  rfl

theorem curr_eq_headD (input : List Char) (st : State) :
    curr input st = (input.drop st.cc).headD NUL := by
  simp [curr, List.getD_eq_getElem?_getD, List.headD_eq_head?_getD, List.head?_drop]

theorem curr_of_drop_cons (input : List Char) (st : State) (c : Char) (rest : List Char)
    (h : input.drop st.cc = c :: rest) : curr input st = c := by
  rw [curr_eq_headD, h]; rfl

theorem curr_of_drop_nil (input : List Char) (st : State)
    (h : input.drop st.cc = []) : curr input st = NUL := by
  rw [curr_eq_headD, h]; rfl

theorem drop_succ_of_drop_cons (input : List Char) (n : Nat) (c : Char) (rest : List Char)
    (h : input.drop n = c :: rest) : input.drop (n + 1) = rest := by
  have : input.drop (n + 1) = (input.drop n).drop 1 := by
    rw [List.drop_drop]
  rw [this, h]; rfl

theorem identRun_length_le (input : List Char) (p : Nat) :
    (identRun input p).length ≤ input.length - p := by
  unfold identRun
  have h := (List.takeWhile_sublist (l := input.drop p) isWCont).length_le
  simpa using h

theorem W_loop_spec (input : List Char) :
    ∀ (f : Nat) (st : State), (identRun input st.cc).length < f →
      W_loop input f st =
        some { cc := st.cc + (identRun input st.cc).length,
               out := st.out ++ identRun input st.cc } := by
  intro f
  induction f with
  | zero => intro st h; omega
  | succ f ih =>
    intro st h
    rw [W_loop]
    cases hd : input.drop st.cc with
    | nil =>
      have hc := curr_of_drop_nil input st hd
      simp [hc, isWCont_NUL, identRun, hd]
    | cons c rest =>
      have hc := curr_of_drop_cons input st c rest hd
      have hrest := drop_succ_of_drop_cons input st.cc c rest hd
      by_cases hw : isWCont c = true
      · have hrun : identRun input st.cc = c :: identRun input (st.cc + 1) := by
          simp [identRun, hd, hrest, List.takeWhile_cons, hw]
        rw [hc, if_pos hw]
        rw [hrun] at h
        have := ih (next (printf [c] st)) (by simpa using h)
        rw [this, hrun]
        simp [Nat.add_assoc, Nat.add_comm 1]
      · have hrun : identRun input st.cc = [] := by
          simp [identRun, hd, List.takeWhile_cons, hw]
        rw [hc, if_neg hw, hrun]
        simp

theorem W_spec_valid (lg : Int) (input : List Char) (f : Nat) (st : State)
    (hs : isWStart (curr input st) = true)
    (hf : (identRun input (st.cc + 1)).length < f) :
    W lg input f st =
      some (VALID,
        { cc := st.cc + 1 + (identRun input (st.cc + 1)).length,
          out := (_log lg "called W\n".toList st).out ++
            curr input st :: identRun input (st.cc + 1) }) := by
  unfold W
  simp only [curr_log, hs, if_true]
  rw [W_loop_spec input f _ (by simpa using hf)]
  simp

theorem W_spec_invalid (lg : Int) (input : List Char) (f : Nat) (st : State)
    (hs : isWStart (curr input st) = false) :
    W lg input f st = some (ERR_INVALID_INPUT, _log lg "called W\n".toList st) := by
  unfold W
  simp [hs]

/-! ## The relation and the functions agree -/

theorem S_mono (lg : Int) (input : List Char) (f : Nat) (st : State) (r : Int × State)
    (h : S lg input f st = some r) (f' : Nat) (hf : f ≤ f') : S lg input f' st = some r :=
  (S_E_mono lg input f).1 st r h f' hf

theorem E_mono (lg : Int) (input : List Char) (f : Nat) (st : State) (r : Int × State)
    (h : E lg input f st = some r) (f' : Nat) (hf : f ≤ f') : E lg input f' st = some r :=
  (S_E_mono lg input f).2 st r h f' hf

theorem runFn_mono (lg : Int) (input : List Char) (b : Rule) (f : Nat) (st : State)
    (r : Int × State) (h : runFn lg input b f st = some r) (f' : Nat) (hf : f ≤ f') :
    runFn lg input b f' st = some r := by
  cases b
  · exact S_mono lg input f st r h f' hf
  · exact E_mono lg input f st r h f' hf

theorem run_of_fuel (lg : Int) (input : List Char) :
    ∀ (f : Nat) (b : Rule) (st : State) (r : Int × State),
      runFn lg input b f st = some r → Run lg input b st r := by
  intro f
  induction f with
  | zero => intro b st r h; cases b <;> simp [runFn, S, E] at h
  | succ f ih =>
    intro b st r h
    cases b with
    | seq =>
      simp only [runFn] at h
      rw [S_succ] at h
      cases hE : E lg input f (_log lg "called S\n".toList st) with
      | none => rw [hE] at h; simp at h
      | some p =>
        obtain ⟨r1, st1⟩ := p
        have hE' := ih Rule.edge _ _ hE
        rw [hE] at h
        simp only at h
        by_cases hr : r1 = VALID
        · rw [if_pos hr] at h
          subst hr
          by_cases hc : (curr input st1 = '|' || curr input st1 = ',') = true
          · rw [if_pos hc] at h
            cases hS : S lg input f (next (printf [','] st1)) with
            | none => rw [hS] at h; simp at h
            | some p2 =>
              obtain ⟨r2, st2⟩ := p2
              have hS' := ih Rule.seq _ _ hS
              rw [hS] at h
              simp only at h
              by_cases hr2 : r2 = VALID
              · rw [if_pos hr2] at h
                subst hr2
                cases h
                exact Run.seqMore hE' (by simpa [isSep] using hc) hS'
              · rw [if_neg hr2] at h
                cases h
                exact Run.seqMoreFail hE' (by simpa [isSep] using hc) hS' hr2
          · rw [if_neg hc] at h
            cases h
            exact Run.seqLast hE' (by simpa [isSep] using hc)
        · rw [if_neg hr] at h
          cases h
          exact Run.seqFail hE' hr
    | edge =>
      simp only [runFn] at h
      rw [E_succ] at h
      cases hW : W lg input f (printf ['"'] (_log lg "called E\n".toList st)) with
      | none => rw [hW] at h; simp at h
      | some p =>
        obtain ⟨r1, st1⟩ := p
        have hW' : WRes lg input _ (r1, st1) := ⟨f, hW⟩
        rw [hW] at h
        simp only at h
        by_cases hr : r1 = VALID
        · rw [if_pos hr] at h
          subst hr
          by_cases hc : curr input (printf ['"', ':'] st1) = '('
          · rw [if_pos hc] at h
            cases hS : S lg input f (next (printf ['{'] (printf ['"', ':'] st1))) with
            | none => rw [hS] at h; simp at h
            | some p2 =>
              obtain ⟨r2, st2⟩ := p2
              have hS' := ih Rule.seq _ _ hS
              rw [hS] at h
              simp only at h
              by_cases hr2 : r2 = VALID
              · rw [if_pos hr2] at h
                subst hr2
                by_cases hc2 : curr input st2 = ')'
                · rw [if_pos hc2] at h
                  cases h
                  exact Run.edgeNode hW' hc hS' hc2
                · rw [if_neg hc2] at h
                  cases h
                  exact Run.edgeNoClose hW' hc hS' hc2
              · rw [if_neg hr2] at h
                cases h
                exact Run.edgeInnerFail hW' hc hS' hr2
          · rw [if_neg hc] at h
            cases h
            exact Run.edgeLeaf hW' hc
        · rw [if_neg hr] at h
          cases h
          exact Run.edgeNoIdent hW' hr

theorem fuel_of_run (lg : Int) (input : List Char) :
    ∀ (b : Rule) (st : State) (r : Int × State),
      Run lg input b st r → ∃ f, runFn lg input b f st = some r := by
  intro b st r h
  induction h with
  | edgeNoIdent hW hr =>
    obtain ⟨f, hf⟩ := hW
    refine ⟨f + 1, ?_⟩
    simp only [runFn]
    rw [E_succ, hf]
    simp [hr]
  | edgeLeaf hW hc =>
    obtain ⟨f, hf⟩ := hW
    refine ⟨f + 1, ?_⟩
    simp only [runFn]
    rw [E_succ, hf]
    simp [hc]
  | edgeNode hW hc hS hc2 ih =>
    obtain ⟨f, hf⟩ := hW
    obtain ⟨g, hg⟩ := ih
    refine ⟨max f g + 1, ?_⟩
    simp only [runFn] at hg ⊢
    rw [E_succ, W_mono _ _ _ _ _ hf (max f g) (le_max_left _ _)]
    simp only [if_true, curr_printf, hc]
    rw [S_mono _ _ _ _ _ hg (max f g) (le_max_right _ _)]
    simp [hc2]
  | edgeNoClose hW hc hS hc2 ih =>
    obtain ⟨f, hf⟩ := hW
    obtain ⟨g, hg⟩ := ih
    refine ⟨max f g + 1, ?_⟩
    simp only [runFn] at hg ⊢
    rw [E_succ, W_mono _ _ _ _ _ hf (max f g) (le_max_left _ _)]
    simp only [if_true, curr_printf, hc]
    rw [S_mono _ _ _ _ _ hg (max f g) (le_max_right _ _)]
    simp [hc2]
  | edgeInnerFail hW hc hS hr2 ih =>
    obtain ⟨f, hf⟩ := hW
    obtain ⟨g, hg⟩ := ih
    refine ⟨max f g + 1, ?_⟩
    simp only [runFn] at hg ⊢
    rw [E_succ, W_mono _ _ _ _ _ hf (max f g) (le_max_left _ _)]
    simp only [if_true, curr_printf, hc]
    rw [S_mono _ _ _ _ _ hg (max f g) (le_max_right _ _)]
    simp [hr2]
  | seqFail hE hr ih =>
    obtain ⟨f, hf⟩ := ih
    refine ⟨f + 1, ?_⟩
    simp only [runFn] at hf ⊢
    rw [S_succ, hf]
    simp [hr]
  | seqLast hE hc ih =>
    obtain ⟨f, hf⟩ := ih
    refine ⟨f + 1, ?_⟩
    simp only [runFn] at hf ⊢
    rw [S_succ, hf]
    simp only [isSep] at hc
    simp [hc]
  | seqMore hE hc hS ih1 ih2 =>
    obtain ⟨f, hf⟩ := ih1
    obtain ⟨g, hg⟩ := ih2
    refine ⟨max f g + 1, ?_⟩
    simp only [runFn] at hf hg ⊢
    rw [S_succ, E_mono _ _ _ _ _ hf (max f g) (le_max_left _ _)]
    simp only [isSep] at hc
    simp only [if_true, hc]
    rw [S_mono _ _ _ _ _ hg (max f g) (le_max_right _ _)]
    simp
  | seqMoreFail hE hc hS hr2 ih1 ih2 =>
    obtain ⟨f, hf⟩ := ih1
    obtain ⟨g, hg⟩ := ih2
    refine ⟨max f g + 1, ?_⟩
    simp only [runFn] at hf hg ⊢
    rw [S_succ, E_mono _ _ _ _ _ hf (max f g) (le_max_left _ _)]
    simp only [isSep] at hc
    simp only [if_true, hc]
    rw [S_mono _ _ _ _ _ hg (max f g) (le_max_right _ _)]
    simp [hr2]

theorem run_deterministic (lg : Int) (input : List Char) (b : Rule) (st : State)
    (r r' : Int × State) (h : Run lg input b st r) (h' : Run lg input b st r') : r = r' := by
  obtain ⟨f, hf⟩ := fuel_of_run lg input b st r h
  obtain ⟨g, hg⟩ := fuel_of_run lg input b st r' h'
  have h1 := runFn_mono lg input b f st r hf (max f g) (le_max_left _ _)
  have h2 := runFn_mono lg input b g st r' hg (max f g) (le_max_right _ _)
  rw [h1] at h2
  exact Option.some.inj h2

/-! ## Cursor facts and totality -/

theorem cc_lt_of_curr_ne_NUL (input : List Char) (st : State) (h : curr input st ≠ NUL) :
    st.cc < input.length := by
  by_contra hlt
  apply h
  apply curr_of_drop_nil
  exact List.drop_eq_nil_of_le (by omega)

theorem cc_lt_of_isWStart (input : List Char) (st : State)
    (h : isWStart (curr input st) = true) : st.cc < input.length := by
  apply cc_lt_of_curr_ne_NUL
  intro hn
  rw [hn, isWStart_NUL] at h
  cases h

theorem cc_lt_of_isSep (input : List Char) (st : State)
    (h : isSep (curr input st) = true) : st.cc < input.length := by
  apply cc_lt_of_curr_ne_NUL
  intro hn
  rw [hn] at h
  revert h
  decide

theorem cc_lt_of_curr_eq (input : List Char) (st : State) (c : Char)
    (h : curr input st = c) (hc : c ≠ NUL) : st.cc < input.length := by
  apply cc_lt_of_curr_ne_NUL
  rw [h]
  exact hc

theorem WRes_cases (lg : Int) (input : List Char) (st : State) (r : Int × State)
    (h : WRes lg input st r) :
    (isWStart (curr input st) = true ∧
      r = (VALID,
        { cc := st.cc + 1 + (identRun input (st.cc + 1)).length,
          out := (_log lg "called W\n".toList st).out ++
            curr input st :: identRun input (st.cc + 1) })) ∨
    (isWStart (curr input st) = false ∧
      r = (ERR_INVALID_INPUT, _log lg "called W\n".toList st)) := by
  obtain ⟨f, hf⟩ := h
  cases hs : isWStart (curr input st) with
  | true =>
    left
    refine ⟨rfl, ?_⟩
    have h1 := W_mono lg input f st r hf (max f ((identRun input (st.cc + 1)).length + 1))
      (le_max_left _ _)
    rw [W_spec_valid lg input _ st hs (by
      have := le_max_right f ((identRun input (st.cc + 1)).length + 1)
      omega)] at h1
    exact (Option.some.inj h1).symm
  | false =>
    right
    refine ⟨rfl, ?_⟩
    rw [W_spec_invalid lg input f st hs] at hf
    exact (Option.some.inj hf).symm

theorem WRes_total (lg : Int) (input : List Char) (f : Nat) (st : State)
    (hf : input.length - st.cc + 1 ≤ f) : ∃ r, W lg input f st = some r := by
  cases hs : isWStart (curr input st) with
  | true =>
    have hlen := identRun_length_le input (st.cc + 1)
    exact ⟨_, W_spec_valid lg input f st hs (by omega)⟩
  | false => exact ⟨_, W_spec_invalid lg input f st hs⟩

theorem ERR_ne_VALID : ERR_INVALID_INPUT ≠ VALID := by decide

theorem callOk_valid (input : List Char) (st s : State) (h1 : st.cc < s.cc)
    (h2 : s.cc ≤ max st.cc input.length) : CallOk input st (VALID, s) :=
  ⟨Or.inl rfl, Nat.le_of_lt h1, fun _ => h1, h2⟩

theorem callOk_err (input : List Char) (st s : State) (h1 : st.cc ≤ s.cc)
    (h2 : s.cc ≤ max st.cc input.length) : CallOk input st (ERR_INVALID_INPUT, s) :=
  ⟨Or.inr rfl, h1, fun h => absurd h ERR_ne_VALID, h2⟩

theorem CallOk.le {input : List Char} {st : State} {r : Int} {s : State}
    (h : CallOk input st (r, s)) : st.cc ≤ s.cc := h.2.1

theorem CallOk.lt {input : List Char} {st : State} {s : State}
    (h : CallOk input st (VALID, s)) : st.cc < s.cc := h.2.2.1 rfl

theorem CallOk.bound {input : List Char} {st : State} {r : Int} {s : State}
    (h : CallOk input st (r, s)) : s.cc ≤ max st.cc input.length := h.2.2.2

theorem WRes_callOk (lg : Int) (input : List Char) (st : State) (r : Int × State)
    (h : WRes lg input st r) : CallOk input st r := by
  rcases WRes_cases lg input st r h with ⟨hs, rfl⟩ | ⟨hs, rfl⟩
  · have h1 := cc_lt_of_isWStart input st hs
    have h2 := identRun_length_le input (st.cc + 1)
    apply callOk_valid
    · simp only; omega
    · simp only; omega
  · apply callOk_err <;> simp

theorem Run_callOk (lg : Int) (input : List Char) :
    ∀ (b : Rule) (st : State) (r : Int × State), Run lg input b st r → CallOk input st r := by
  intro b st r h
  induction h with
  | edgeNoIdent hW hr =>
    have h0 := WRes_callOk lg input _ _ hW
    have := h0.le
    have := h0.bound
    simp only [printf_cc, log_cc] at *
    apply callOk_err <;> omega
  | edgeLeaf hW hc =>
    have h0 := WRes_callOk lg input _ _ hW
    have := h0.lt
    have := h0.bound
    simp only [printf_cc, log_cc] at *
    apply callOk_valid <;> simp only [printf_cc] <;> omega
  | edgeNode hW hc hS hc2 ih =>
    have h0 := WRes_callOk lg input _ _ hW
    have := h0.lt
    have := h0.bound
    have := ih.lt
    have := ih.bound
    have h1 := cc_lt_of_curr_eq input _ _ hc (by decide)
    have h2 := cc_lt_of_curr_eq input _ _ hc2 (by decide)
    simp only [printf_cc, log_cc, next_cc] at *
    apply callOk_valid <;> simp only [printf_cc, next_cc] <;> omega
  | edgeNoClose hW hc hS hc2 ih =>
    have h0 := WRes_callOk lg input _ _ hW
    have := h0.lt
    have := h0.bound
    have := ih.lt
    have := ih.bound
    have h1 := cc_lt_of_curr_eq input _ _ hc (by decide)
    simp only [printf_cc, log_cc, next_cc] at *
    apply callOk_err <;> omega
  | edgeInnerFail hW hc hS hr2 ih =>
    have h0 := WRes_callOk lg input _ _ hW
    have := h0.lt
    have := h0.bound
    have := ih.le
    have := ih.bound
    have h1 := cc_lt_of_curr_eq input _ _ hc (by decide)
    simp only [printf_cc, log_cc, next_cc] at *
    apply callOk_err <;> omega
  | seqFail hE hr ih =>
    have := ih.le
    have := ih.bound
    simp only [printf_cc, log_cc, next_cc] at *
    apply callOk_err <;> omega
  | seqLast hE hc ih =>
    have := ih.lt
    have := ih.bound
    simp only [printf_cc, log_cc, next_cc] at *
    apply callOk_valid <;> omega
  | seqMore hE hc hS ih1 ih2 =>
    have h1 := cc_lt_of_isSep input _ hc
    have := ih1.lt
    have := ih1.bound
    have := ih2.lt
    have := ih2.bound
    simp only [printf_cc, log_cc, next_cc] at *
    apply callOk_valid <;> omega
  | seqMoreFail hE hc hS hr2 ih1 ih2 =>
    have h1 := cc_lt_of_isSep input _ hc
    have := ih1.lt
    have := ih1.bound
    have := ih2.le
    have := ih2.bound
    simp only [printf_cc, log_cc, next_cc] at *
    apply callOk_err <;> omega

theorem runFn_total (lg : Int) (input : List Char) :
    ∀ (f : Nat) (b : Rule) (st : State), fuelNeeded input b st.cc ≤ f →
      ∃ r, runFn lg input b f st = some r := by
  intro f
  induction f with
  | zero => intro b st h; cases b <;> simp [fuelNeeded] at h
  | succ f ih =>
    intro b st h
    cases b with
    | seq =>
      simp only [fuelNeeded] at h
      simp only [runFn]
      rw [S_succ]
      obtain ⟨⟨r1, st1⟩, hE⟩ := ih Rule.edge (_log lg "called S\n".toList st)
        (by simp only [fuelNeeded, log_cc]; omega)
      have hE1 : E lg input f (_log lg "called S\n".toList st) = some (r1, st1) := hE
      have hok := Run_callOk lg input _ _ _ (run_of_fuel lg input f _ _ _ hE)
      rw [hE1]
      simp only
      by_cases hr : r1 = VALID
      · subst hr
        rw [if_pos rfl]
        by_cases hc : (curr input st1 = '|' || curr input st1 = ',') = true
        · rw [if_pos hc]
          have hlt := cc_lt_of_isSep input st1 (by simpa [isSep] using hc)
          have := hok.lt
          simp only [log_cc] at this
          obtain ⟨⟨r2, st2⟩, hS⟩ := ih Rule.seq (next (printf [','] st1))
            (by simp only [fuelNeeded, next_cc, printf_cc]; omega)
          have hS1 : S lg input f (next (printf [','] st1)) = some (r2, st2) := hS
          rw [hS1]
          simp only
          by_cases hr2 : r2 = VALID
          · rw [if_pos hr2]; exact ⟨_, rfl⟩
          · rw [if_neg hr2]; exact ⟨_, rfl⟩
        · rw [if_neg hc]; exact ⟨_, rfl⟩
      · rw [if_neg hr]; exact ⟨_, rfl⟩
    | edge =>
      simp only [fuelNeeded] at h
      simp only [runFn]
      rw [E_succ]
      obtain ⟨⟨r1, st1⟩, hW⟩ := WRes_total lg input f
        (printf ['"'] (_log lg "called E\n".toList st))
        (by simp only [printf_cc, log_cc]; omega)
      have hok := WRes_callOk lg input _ _ ⟨f, hW⟩
      rw [hW]
      simp only
      by_cases hr : r1 = VALID
      · subst hr
        rw [if_pos rfl]
        by_cases hc : curr input (printf ['"', ':'] st1) = '('
        · rw [if_pos hc]
          have hlt := cc_lt_of_curr_eq input _ _ hc (by decide)
          have := hok.lt
          simp only [log_cc, printf_cc] at this hlt
          obtain ⟨⟨r2, st2⟩, hS⟩ := ih Rule.seq (next (printf ['{'] (printf ['"', ':'] st1)))
            (by simp only [fuelNeeded, next_cc, printf_cc]; omega)
          have hS1 : S lg input f (next (printf ['{'] (printf ['"', ':'] st1))) =
            some (r2, st2) := hS
          rw [hS1]
          simp only
          by_cases hr2 : r2 = VALID
          · rw [if_pos hr2]
            by_cases hc2 : curr input st2 = ')'
            · rw [if_pos hc2]; exact ⟨_, rfl⟩
            · rw [if_neg hc2]; exact ⟨_, rfl⟩
          · rw [if_neg hr2]; exact ⟨_, rfl⟩
        · rw [if_neg hc]; exact ⟨_, rfl⟩
      · rw [if_neg hr]; exact ⟨_, rfl⟩

theorem S_eq_of_run (lg : Int) (input : List Char) (f : Nat) (st : State) (r : Int × State)
    (hf : input.length - st.cc + 3 ≤ f) (h : Run lg input Rule.seq st r) :
    S lg input f st = some r := by
  obtain ⟨r', hr'⟩ := runFn_total lg input f Rule.seq st hf
  have := run_deterministic lg input _ _ _ _ h (run_of_fuel lg input f _ _ _ hr')
  rw [this]
  exact hr'

theorem E_eq_of_run (lg : Int) (input : List Char) (f : Nat) (st : State) (r : Int × State)
    (hf : input.length - st.cc + 2 ≤ f) (h : Run lg input Rule.edge st r) :
    E lg input f st = some r := by
  obtain ⟨r', hr'⟩ := runFn_total lg input f Rule.edge st hf
  have := run_deterministic lg input _ _ _ _ h (run_of_fuel lg input f _ _ _ hr')
  rw [this]
  exact hr'

theorem parse_eq_iff_run (lg : Int) (input : List Char) (r : Int × State) :
    parse lg input = some r ↔ Run lg input Rule.seq { cc := 0, out := [] } r := by
  constructor
  · intro h
    exact run_of_fuel lg input _ Rule.seq _ _ h
  · intro h
    exact S_eq_of_run lg input _ _ _ (by simp) h

theorem parse_total (lg : Int) (input : List Char) : ∃ r, parse lg input = some r :=
  runFn_total lg input _ Rule.seq _ (by simp [fuelNeeded])

/-! ## Identifiers read by `W` -/

theorem drop_of_drop_append (input : List Char) (p : Nat) (xs ys : List Char)
    (h : input.drop p = xs ++ ys) : input.drop (p + xs.length) = ys := by
  rw [← List.drop_drop, h, List.drop_left]

theorem takeWhile_stop (q : Char → Bool) (d : Char) (hd : q d = false) :
    ∀ l : List Char, q ((l.drop (l.takeWhile q).length).headD d) = false := by
  intro l
  induction l with
  | nil => simpa using hd
  | cons c cs ih =>
    by_cases hc : q c = true
    · simpa [List.takeWhile_cons, hc] using ih
    · simp [List.takeWhile_cons, hc]

theorem takeWhile_split (q : Char → Bool) (l : List Char) :
    l = l.takeWhile q ++ l.drop (l.takeWhile q).length := by
  obtain ⟨t, ht⟩ := List.takeWhile_prefix (l := l) q
  have h2 : l.drop (l.takeWhile q).length = t := by
    conv_lhs => arg 2; rw [← ht]
    exact List.drop_left _ _
  rw [h2]
  exact ht.symm

theorem takeWhile_exact (q : Char → Bool) (d : Char) (xs rest : List Char)
    (hx : ∀ c ∈ xs, q c = true) (hr : q (rest.headD d) = false) :
    (xs ++ rest).takeWhile q = xs := by
  rw [List.takeWhile_append_of_pos hx]
  cases rest with
  | nil => simp
  | cons c cs =>
    have : q c = false := by simpa using hr
    simp [List.takeWhile_cons, this]

theorem identRun_all (input : List Char) (p : Nat) :
    ∀ c ∈ identRun input p, isWCont c = true := fun _ hc => List.mem_takeWhile_imp hc

theorem identRun_split (input : List Char) (p : Nat) :
    input.drop p = identRun input p ++ input.drop (p + (identRun input p).length) := by
  have := takeWhile_split isWCont (input.drop p)
  rw [List.drop_drop] at this
  exact this

theorem identRun_stop (input : List Char) (p : Nat) :
    isWCont (curr input { cc := p + (identRun input p).length, out := [] }) = false := by
  have := takeWhile_stop isWCont NUL isWCont_NUL (input.drop p)
  rw [List.drop_drop] at this
  rw [curr_eq_headD]
  exact this

theorem curr_congr (input : List Char) (st st' : State) (h : st.cc = st'.cc) :
    curr input st = curr input st' := by
  simp [curr, h]

theorem drop_eq_curr_cons (input : List Char) (st : State) (h : st.cc < input.length) :
    input.drop st.cc = curr input st :: input.drop (st.cc + 1) := by
  rw [List.drop_eq_getElem_cons h]
  simp [curr, List.getD_eq_getElem?_getD, List.getElem?_eq_getElem h]

theorem isIdentifier_cons (c : Char) (cs : List Char) :
    isIdentifier (c :: cs) = true ↔ isWStart c = true ∧ ∀ x ∈ cs, isWCont x = true := by
  simp [isIdentifier]

/-- What a successful `W` at log level `LOG_NONE` does, seen from outside:
it reads a maximal identifier and echoes it. -/
theorem WRes_valid_name (input : List Char) (st st1 : State)
    (h : WRes LOG_NONE input st (VALID, st1)) :
    ∃ name, isIdentifier name = true ∧ input.drop st.cc = name ++ input.drop st1.cc ∧
      st1.cc = st.cc + name.length ∧ st1.out = st.out ++ name ∧
      isWCont (curr input st1) = false := by
  rcases WRes_cases LOG_NONE input st _ h with ⟨hs, hr⟩ | ⟨hs, hr⟩
  · have hst1 : st1 = _ := (Prod.mk.inj hr).2
    have hlt := cc_lt_of_isWStart input st hs
    refine ⟨curr input st :: identRun input (st.cc + 1), ?_, ?_, ?_, ?_, ?_⟩
    · rw [isIdentifier_cons]
      exact ⟨hs, identRun_all input _⟩
    · rw [hst1, drop_eq_curr_cons input st hlt]
      simp only [List.cons_append]
      rw [← identRun_split]
    · rw [hst1]; simp only [List.length_cons]; omega
    · rw [hst1]; simp
    · rw [hst1]
      rw [← identRun_stop input (st.cc + 1)]
      exact congrArg isWCont (curr_congr _ _ _ rfl)
  · have := (Prod.mk.inj hr).1
    exact absurd this.symm ERR_ne_VALID

theorem WRes_of_name (input : List Char) (st : State) (name rest : List Char)
    (hn : isIdentifier name = true) (hd : input.drop st.cc = name ++ rest)
    (hr : isWCont (rest.headD NUL) = false) :
    WRes LOG_NONE input st
      (VALID, { cc := st.cc + name.length, out := st.out ++ name }) := by
  cases name with
  | nil => simp [isIdentifier] at hn
  | cons c cs =>
    rw [isIdentifier_cons] at hn
    have hc : curr input st = c := curr_of_drop_cons input st c (cs ++ rest) hd
    have hrest := drop_succ_of_drop_cons input st.cc c (cs ++ rest) hd
    have hrun : identRun input (st.cc + 1) = cs := by
      unfold identRun
      rw [hrest]
      exact takeWhile_exact isWCont NUL cs rest hn.2 hr
    refine ⟨cs.length + 1, ?_⟩
    rw [W_spec_valid LOG_NONE input _ st (by rw [hc]; exact hn.1) (by rw [hrun]; omega)]
    rw [hrun, hc]
    simp [Nat.add_assoc, Nat.add_comm 1]

/-! ## Soundness: a successful run read a forest -/

theorem drop_cons_of_curr (input : List Char) (st : State) (c : Char)
    (h : curr input st = c) (hc : c ≠ NUL) :
    input.drop st.cc = c :: input.drop (st.cc + 1) := by
  rw [drop_eq_curr_cons input st (cc_lt_of_curr_eq input st c h hc), h]

theorem sepChar_of_isSep (c : Char) (h : isSep c = true) : sepChar (decide (c = '|')) = c := by
  unfold sepChar
  by_cases hc : c = '|'
  · simp [hc]
  · simp [isSep, hc] at h
    simp [hc, h]

theorem isSep_ne_NUL (c : Char) (h : isSep c = true) : c ≠ NUL := by
  intro hn
  rw [hn] at h
  revert h
  decide

theorem Run_sound (input : List Char) :
    ∀ (b : Rule) (st : State) (r : Int × State),
      Run LOG_NONE input b st r → r.1 = VALID → Recognised input b st r.2 := by
  intro b st r h
  induction h with
  | edgeNoIdent hW hr => intro h; exact absurd h ERR_ne_VALID
  | edgeNoClose hW hc hS hc2 ih => intro h; exact absurd h ERR_ne_VALID
  | edgeInnerFail hW hc hS hr2 ih => intro h; exact absurd h ERR_ne_VALID
  | seqFail hE hr ih => intro h; exact absurd h ERR_ne_VALID
  | seqMoreFail hE hc hS hr2 ih1 ih2 => intro h; exact absurd h ERR_ne_VALID
  | edgeLeaf hW hc =>
    intro _
    obtain ⟨name, hn, hd, hcc, hout, -⟩ := WRes_valid_name input _ _ hW
    simp only [printf_cc, log_cc, log_none, printf_out] at hd hcc hout
    refine ⟨Edge.leaf name, by simpa [Edge.wellFormed] using hn, ?_, ?_, ?_⟩
    · simpa [Edge.render] using hd
    · simpa [Edge.render] using hcc
    · simp [Edge.translate, hout]
  | edgeNode hW hc hS hc2 ih =>
    intro _
    obtain ⟨name, hn, hd, hcc, hout, -⟩ := WRes_valid_name input _ _ hW
    obtain ⟨fr, hwf, hd2, hcc2, hout2⟩ := ih rfl
    dsimp only at hd hcc hout hd2 hcc2 hout2
    simp only [printf_cc, log_cc, log_none, printf_out, next_cc, next_out] at hd hcc hout
    simp only [printf_cc, log_cc, log_none, printf_out, next_cc, next_out] at hd2 hcc2 hout2
    have h1 := drop_cons_of_curr input _ _ hc (by decide)
    have h2 := drop_cons_of_curr input _ _ hc2 (by decide)
    refine ⟨Edge.node name fr, by simp [Edge.wellFormed, hn, hwf], ?_, ?_, ?_⟩
    · simp only [Edge.render, next_cc, printf_cc]
      rw [hd, h1, hd2, h2]
      simp
    · simp only [Edge.render, next_cc, printf_cc, List.length_append, List.length_cons,
        List.length_nil]
      omega
    · simp [Edge.translate, hout, hout2]
  | seqLast hE hc ih =>
    intro _
    obtain ⟨e, hwf, hd, hcc, hout⟩ := ih rfl
    dsimp only at hd hcc hout
    simp only [log_cc, log_none] at hd hcc hout
    exact ⟨Forest.single e, by simpa [Forest.wellFormed] using hwf,
      by simpa [Forest.render] using hd, by simpa [Forest.render] using hcc,
      by simpa [Forest.translate] using hout⟩
  | @seqMore st0 st1 st2 hE hc hS ih1 ih2 =>
    intro _
    obtain ⟨e, hwf, hd, hcc, hout⟩ := ih1 rfl
    obtain ⟨fr, hwf2, hd2, hcc2, hout2⟩ := ih2 rfl
    dsimp only at hd hcc hout hd2 hcc2 hout2
    simp only [printf_cc, log_cc, log_none, printf_out, next_cc, next_out] at hd hcc hout
    simp only [printf_cc, log_cc, log_none, printf_out, next_cc, next_out] at hd2 hcc2 hout2
    have h1 := drop_cons_of_curr input _ _ rfl (isSep_ne_NUL _ hc)
    refine ⟨Forest.cons e (decide (curr input st1 = '|')) fr,
      by simp [Forest.wellFormed, hwf, hwf2], ?_, ?_, ?_⟩
    · simp only [Forest.render]
      rw [sepChar_of_isSep _ hc, hd, h1, hd2]
      simp
    · simp only [Forest.render, List.length_append, List.length_cons]
      omega
    · simp [Forest.translate, hout, hout2]

/-! ## Completeness: every rendered forest is read back -/

theorem curr_of_drop (input : List Char) (st : State) (xs : List Char)
    (h : input.drop st.cc = xs) : curr input st = xs.headD NUL := by
  rw [curr_eq_headD, h]

theorem sepChar_isSep (pipe : Bool) : isSep (sepChar pipe) = true := by
  cases pipe <;> decide

theorem isWCont_of_isSep (c : Char) (h : isSep c = true) : isWCont c = false := by
  simp only [isSep, Bool.or_eq_true, decide_eq_true_eq] at h
  rcases h with rfl | rfl <;> decide

theorem ne_paren_of_isSep (c : Char) (h : isSep c = true) : c ≠ '(' := by
  intro hc
  rw [hc] at h
  revert h
  decide

theorem charAt_of_drop (input : List Char) (p : Nat) (xs : List Char)
    (h : input.drop p = xs) : input.getD p NUL = xs.headD NUL :=
  curr_of_drop input { cc := p, out := [] } xs h

theorem WRes_of_name_at (input : List Char) (p : Nat) (out name rest : List Char)
    (hn : isIdentifier name = true) (hd : input.drop p = name ++ rest)
    (hr : isWCont (rest.headD NUL) = false) :
    WRes LOG_NONE input ⟨p, out⟩ (VALID, ⟨p + name.length, out ++ name⟩) :=
  WRes_of_name input ⟨p, out⟩ name rest hn hd hr

theorem edgeLeaf_at (input : List Char) (p : Nat) (out : List Char) (q : Nat) (o : List Char)
    (hW : WRes LOG_NONE input ⟨p, out ++ ['"']⟩ (VALID, ⟨q, o⟩))
    (hc : input.getD q NUL ≠ '(') :
    Run LOG_NONE input Rule.edge ⟨p, out⟩ (VALID, ⟨q, o ++ ['"', ':', '{', '}']⟩) := by
  have key := @Run.edgeLeaf LOG_NONE input ⟨p, out⟩ ⟨q, o⟩
    (by simpa [printf] using hW) (by simpa [curr] using hc)
  simpa [printf] using key

theorem edgeNode_at (input : List Char) (p : Nat) (out : List Char) (q : Nat) (o : List Char)
    (q2 : Nat) (o2 : List Char)
    (hW : WRes LOG_NONE input ⟨p, out ++ ['"']⟩ (VALID, ⟨q, o⟩))
    (hc : input.getD q NUL = '(')
    (hS : Run LOG_NONE input Rule.seq ⟨q + 1, o ++ ['"', ':', '{']⟩ (VALID, ⟨q2, o2⟩))
    (hc2 : input.getD q2 NUL = ')') :
    Run LOG_NONE input Rule.edge ⟨p, out⟩ (VALID, ⟨q2 + 1, o2 ++ ['}']⟩) := by
  have key := @Run.edgeNode LOG_NONE input ⟨p, out⟩ ⟨q, o⟩ ⟨q2, o2⟩
    (by simpa [printf] using hW) (by simpa [curr] using hc)
    (by simpa [printf, next] using hS) (by simpa [curr] using hc2)
  simpa [printf, next] using key

theorem edgeNoClose_at (input : List Char) (p : Nat) (out : List Char) (q : Nat)
    (o : List Char) (q2 : Nat) (o2 : List Char)
    (hW : WRes LOG_NONE input ⟨p, out ++ ['"']⟩ (VALID, ⟨q, o⟩))
    (hc : input.getD q NUL = '(')
    (hS : Run LOG_NONE input Rule.seq ⟨q + 1, o ++ ['"', ':', '{']⟩ (VALID, ⟨q2, o2⟩))
    (hc2 : input.getD q2 NUL ≠ ')') :
    Run LOG_NONE input Rule.edge ⟨p, out⟩ (ERR_INVALID_INPUT, ⟨q2, o2⟩) := by
  have key := @Run.edgeNoClose LOG_NONE input ⟨p, out⟩ ⟨q, o⟩ ⟨q2, o2⟩
    (by simpa [printf] using hW) (by simpa [curr] using hc)
    (by simpa [printf, next] using hS) (by simpa [curr] using hc2)
  simpa [printf, next] using key

theorem seqLast_at (input : List Char) (p : Nat) (out : List Char) (q : Nat) (o : List Char)
    (hE : Run LOG_NONE input Rule.edge ⟨p, out⟩ (VALID, ⟨q, o⟩))
    (hc : isSep (input.getD q NUL) = false) :
    Run LOG_NONE input Rule.seq ⟨p, out⟩ (VALID, ⟨q, o⟩) :=
  Run.seqLast (by simpa using hE) (by simpa [curr] using hc)

theorem seqMore_at (input : List Char) (p : Nat) (out : List Char) (q : Nat) (o : List Char)
    (s2 : State)
    (hE : Run LOG_NONE input Rule.edge ⟨p, out⟩ (VALID, ⟨q, o⟩))
    (hc : isSep (input.getD q NUL) = true)
    (hS : Run LOG_NONE input Rule.seq ⟨q + 1, o ++ [',']⟩ (VALID, s2)) :
    Run LOG_NONE input Rule.seq ⟨p, out⟩ (VALID, s2) :=
  @Run.seqMore LOG_NONE input ⟨p, out⟩ ⟨q, o⟩ s2 (by simpa using hE) (by simpa [curr] using hc)
    (by simpa [printf, next] using hS)

theorem seqMoreFail_at (input : List Char) (p : Nat) (out : List Char) (q : Nat)
    (o : List Char) (r2 : Int) (s2 : State)
    (hE : Run LOG_NONE input Rule.edge ⟨p, out⟩ (VALID, ⟨q, o⟩))
    (hc : isSep (input.getD q NUL) = true)
    (hS : Run LOG_NONE input Rule.seq ⟨q + 1, o ++ [',']⟩ (r2, s2)) (hr : r2 ≠ VALID) :
    Run LOG_NONE input Rule.seq ⟨p, out⟩ (ERR_INVALID_INPUT, s2) :=
  @Run.seqMoreFail LOG_NONE input ⟨p, out⟩ ⟨q, o⟩ r2 s2 (by simpa using hE) (by simpa [curr] using hc)
    (by simpa [printf, next] using hS) hr

mutual

theorem Edge_complete (input : List Char) :
    ∀ (e : Edge), e.wellFormed = true → ∀ (p : Nat) (out rest : List Char),
      input.drop p = e.render ++ rest →
      isWCont (rest.headD NUL) = false → rest.headD NUL ≠ '(' →
      Run LOG_NONE input Rule.edge ⟨p, out⟩
        (VALID, ⟨p + e.render.length, out ++ e.translate⟩)
  | Edge.leaf name, hwf, p, out, rest, hd, h1, h2 => by
    simp only [Edge.wellFormed] at hwf
    simp only [Edge.render] at hd ⊢
    have hW := WRes_of_name_at input p (out ++ ['"']) name rest hwf hd h1
    have hc : input.getD (p + name.length) NUL ≠ '(' := by
      rw [charAt_of_drop input _ rest (drop_of_drop_append input _ name rest hd)]
      exact h2
    have key := edgeLeaf_at input p out _ _ hW hc
    simpa [Edge.translate] using key
  | Edge.node name fr, hwf, p, out, rest, hd, h1, h2 => by
    simp only [Edge.wellFormed, Bool.and_eq_true] at hwf
    simp only [Edge.render] at hd ⊢
    have hd0 : input.drop p = name ++ '(' :: (fr.render ++ ')' :: rest) := by simpa using hd
    have hW := WRes_of_name_at input p (out ++ ['"']) name _ hwf.1 hd0 (by simp only [List.headD_cons]; decide)
    have hd1 := drop_of_drop_append input p name _ hd0
    have hc : input.getD (p + name.length) NUL = '(' := by
      rw [charAt_of_drop input _ _ hd1]
      rfl
    have hd2 := drop_succ_of_drop_cons input _ _ _ hd1
    have hS := Forest_complete input fr hwf.2 (p + name.length + 1)
      (out ++ ['"'] ++ name ++ ['"', ':', '{']) (')' :: rest) hd2
      (by simp only [List.headD_cons]; decide) (by simp only [List.headD_cons]; decide)
      (by simp only [List.headD_cons]; decide)
    have hc2 : input.getD (p + name.length + 1 + fr.render.length) NUL = ')' := by
      rw [charAt_of_drop input _ _ (drop_of_drop_append input _ fr.render _ hd2)]
      rfl
    have key := edgeNode_at input p out _ _ _ _ hW hc hS hc2
    have e1 : p + name.length + 1 + fr.render.length + 1 =
        p + (name ++ '(' :: (fr.render ++ [')'])).length := by
      simp only [List.length_append, List.length_cons, List.length_nil]
      omega
    rw [e1] at key
    simpa [Edge.translate] using key

theorem Forest_complete (input : List Char) :
    ∀ (fr : Forest), fr.wellFormed = true → ∀ (p : Nat) (out rest : List Char),
      input.drop p = fr.render ++ rest →
      isWCont (rest.headD NUL) = false → rest.headD NUL ≠ '(' →
      isSep (rest.headD NUL) = false →
      Run LOG_NONE input Rule.seq ⟨p, out⟩
        (VALID, ⟨p + fr.render.length, out ++ fr.translate⟩)
  | Forest.single e, hwf, p, out, rest, hd, h1, h2, h3 => by
    simp only [Forest.wellFormed] at hwf
    simp only [Forest.render, Forest.translate] at hd ⊢
    have hE := Edge_complete input e hwf p out rest hd h1 h2
    have hc : isSep (input.getD (p + e.render.length) NUL) = false := by
      rw [charAt_of_drop input _ rest (drop_of_drop_append input _ e.render rest hd)]
      exact h3
    exact seqLast_at input p out _ _ hE hc
  | Forest.cons e pipe tl, hwf, p, out, rest, hd, h1, h2, h3 => by
    simp only [Forest.wellFormed, Bool.and_eq_true] at hwf
    simp only [Forest.render, Forest.translate] at hd ⊢
    have hsep := sepChar_isSep pipe
    have hd0 : input.drop p = e.render ++ sepChar pipe :: (tl.render ++ rest) := by
      simpa using hd
    have hE := Edge_complete input e hwf.1 p out _ hd0
      (isWCont_of_isSep _ hsep) (ne_paren_of_isSep _ hsep)
    have hd1 := drop_of_drop_append input p e.render _ hd0
    have hc : isSep (input.getD (p + e.render.length) NUL) = true := by
      rw [charAt_of_drop input _ _ hd1]
      exact hsep
    have hd2 := drop_succ_of_drop_cons input _ _ _ hd1
    have hS := Forest_complete input tl hwf.2 (p + e.render.length + 1)
      (out ++ e.translate ++ [',']) rest hd2 h1 h2 h3
    have key := seqMore_at input p out _ _ _ hE hc hS
    have e1 : p + e.render.length + 1 + tl.render.length =
        p + (e.render ++ sepChar pipe :: tl.render).length := by
      simp only [List.length_append, List.length_cons]
      omega
    rw [e1] at key
    simpa using key

end

/-! ## Output is append-only: earlier output does not influence a run -/

@[simp] theorem framed_printf (pre text : List Char) (st : State) :
    printf text (framed pre st) = framed pre (printf text st) := by
  simp [printf, framed]

@[simp] theorem framed_next (pre : List Char) (st : State) :
    next (framed pre st) = framed pre (next st) := rfl

@[simp] theorem framed_log (lg : Int) (pre text : List Char) (st : State) :
    _log lg text (framed pre st) = framed pre (_log lg text st) := by
  unfold _log
  split <;> simp

@[simp] theorem framed_curr (input pre : List Char) (st : State) :
    curr input (framed pre st) = curr input st := rfl

theorem W_loop_framed (input pre : List Char) :
    ∀ (f : Nat) (st : State),
      W_loop input f (framed pre st) = (W_loop input f st).map (framed pre) := by
  intro f
  induction f with
  | zero => intro st; rfl
  | succ f ih =>
    intro st
    rw [W_loop, W_loop]
    simp only [framed_curr, framed_printf, framed_next]
    split
    · exact ih _
    · rfl

theorem W_framed (lg : Int) (input pre : List Char) (f : Nat) (st : State) :
    W lg input f (framed pre st) = (W lg input f st).map (framedRes pre) := by
  unfold W
  simp only [framed_log, framed_curr, framed_printf, framed_next]
  split
  · rw [W_loop_framed]
    cases W_loop input f (next (printf [curr input (_log lg "called W\n".toList st)]
      (_log lg "called W\n".toList st))) <;> rfl
  · rfl

theorem S_E_framed (lg : Int) (input pre : List Char) :
    ∀ f : Nat,
      (∀ st, S lg input f (framed pre st) = (S lg input f st).map (framedRes pre)) ∧
      (∀ st, E lg input f (framed pre st) = (E lg input f st).map (framedRes pre)) := by
  intro f
  induction f with
  | zero => constructor <;> intro st <;> simp [S, E]
  | succ f ih =>
    obtain ⟨ihS, ihE⟩ := ih
    constructor
    · intro st
      rw [S_succ, S_succ]
      simp only [framed_log]
      rw [ihE]
      cases E lg input f (_log lg "called S\n".toList st) with
      | none => rfl
      | some p =>
        obtain ⟨r1, st1⟩ := p
        simp only [Option.map_some', framedRes, framed_curr, framed_printf, framed_next]
        split
        · split
          · rw [ihS]
            cases S lg input f (next (printf [','] st1)) with
            | none => rfl
            | some p2 =>
              obtain ⟨r2, st2⟩ := p2
              simp only [Option.map_some', framedRes]
              split <;> rfl
          · rfl
        · rfl
    · intro st
      rw [E_succ, E_succ]
      simp only [framed_log, framed_printf]
      rw [W_framed]
      cases W lg input f (printf ['"'] (_log lg "called E\n".toList st)) with
      | none => rfl
      | some p =>
        obtain ⟨r1, st1⟩ := p
        simp only [Option.map_some', framedRes, framed_curr, framed_printf, framed_next]
        split
        · split
          · rw [ihS]
            cases S lg input f (next (printf ['{'] (printf ['"', ':'] st1))) with
            | none => rfl
            | some p2 =>
              obtain ⟨r2, st2⟩ := p2
              simp only [Option.map_some', framedRes, framed_curr, framed_printf, framed_next]
              split
              · split <;> rfl
              · rfl
          · rfl
        · rfl

/-- The output of `main` on an input, in terms of the top-level parse. -/
theorem main_eq_of_parse (lg : Int) (input : List Char) (rest : List (List Char))
    (r : Int) (st : State) (h : parse lg input = some (r, st)) :
    main lg (input :: rest) =
      some (r, (_log lg (if r = VALID then "string accepted\n".toList
        else "invalid input\n".toList) ⟨st.cc, '{' :: (st.out ++ ['}'])⟩).out) := by
  have hS := (S_E_framed lg input ['{'] (input.length + 3)).1 { cc := 0, out := [] }
  unfold parse at h
  rw [h] at hS
  unfold main
  simp only [printf, List.nil_append]
  simp only [framed, List.append_nil] at hS
  rw [hS]
  simp only [Option.map_some', framedRes, framed]
  congr 1

theorem main_none_of_parse (input : List Char) (rest : List (List Char))
    (r : Int) (st : State) (h : parse LOG_NONE input = some (r, st)) :
    main LOG_NONE (input :: rest) = some (r, '{' :: (st.out ++ ['}'])) := by
  rw [main_eq_of_parse LOG_NONE input rest r st h]
  simp

/-! ## Translation of well-formed input (C1, C2, C3) -/

theorem parse_render (fr : Forest) (hwf : fr.wellFormed = true) (rest : List Char)
    (h1 : isWCont (rest.headD NUL) = false) (h2 : rest.headD NUL ≠ '(')
    (h3 : isSep (rest.headD NUL) = false) :
    parse LOG_NONE (fr.render ++ rest) =
      some (VALID, ⟨fr.render.length, fr.translate⟩) := by
  rw [parse_eq_iff_run]
  have key := Forest_complete (fr.render ++ rest) fr hwf 0 [] rest rfl h1 h2 h3
  simpa using key

mutual

theorem Edge_translate_grammar :
    ∀ e : Edge, e.wellFormed = true → OutEdge e.translate
  | Edge.leaf name, hwf => by
    simp only [Edge.wellFormed] at hwf
    simp only [Edge.translate]
    exact OutEdge.leaf hwf
  | Edge.node name fr, hwf => by
    simp only [Edge.wellFormed, Bool.and_eq_true] at hwf
    simp only [Edge.translate]
    exact OutEdge.node hwf.1 (Forest_translate_grammar fr hwf.2)

theorem Forest_translate_grammar :
    ∀ fr : Forest, fr.wellFormed = true → OutSequence fr.translate
  | Forest.single e, hwf => by
    simp only [Forest.wellFormed] at hwf
    simp only [Forest.translate]
    exact OutSequence.one (Edge_translate_grammar e hwf)
  | Forest.cons e pipe tl, hwf => by
    simp only [Forest.wellFormed, Bool.and_eq_true] at hwf
    simp only [Forest.translate]
    exact OutSequence.more (Edge_translate_grammar e hwf.1) (Forest_translate_grammar tl hwf.2)

end

theorem parse_sound (input : List Char) (st : State)
    (h : parse LOG_NONE input = some (VALID, st)) :
    ∃ fr : Forest, fr.wellFormed = true ∧ input = fr.render ++ input.drop st.cc ∧
      st.cc = fr.render.length ∧ st.out = fr.translate := by
  rw [parse_eq_iff_run] at h
  obtain ⟨fr, hwf, hd, hcc, hout⟩ := Run_sound input _ _ _ h rfl
  refine ⟨fr, hwf, ?_, ?_, ?_⟩
  · simpa using hd
  · simpa using hcc
  · simpa using hout

/-- C1. Completeness: for every forest whose names are identifiers (nested
child lists are non-empty by construction, every separator position carries
its own choice of pipe or comma), `S` run from position 0 on the source
rendering returns `VALID`, stops at the end of the input and emits exactly
the translation; `main` prints the translation wrapped in braces. -/
theorem C1_translation_complete (fr : Forest) (hwf : fr.wellFormed = true) :
    parse LOG_NONE fr.render = some (VALID, ⟨fr.render.length, fr.translate⟩) ∧
      main LOG_NONE [fr.render] = some (VALID, '{' :: (fr.translate ++ ['}'])) := by
  have h := parse_render fr hwf [] (by decide) (by decide) (by decide)
  rw [List.append_nil] at h
  exact ⟨h, main_none_of_parse _ _ _ _ h⟩

theorem C1_translation_complete_witness :
    (forestABC.wellFormed = true ∧ forestABC.render = "A(B,C)".toList ∧
      main LOG_NONE ["A(B,C)".toList] =
        some (VALID, "\x7b\"A\":\x7b\"B\":\x7b\x7d,\"C\":\x7b\x7d\x7d\x7d".toList)) ∧
    (forestABCD.wellFormed = true ∧ forestABCD.render = "A(B(C(D)))".toList ∧
      main LOG_NONE ["A(B(C(D)))".toList] =
        some (VALID,
          "\x7b\"A\":\x7b\"B\":\x7b\"C\":\x7b\"D\":\x7b\x7d\x7d\x7d\x7d\x7d".toList)) :=
  ⟨⟨by decide, by decide, (C1_translation_complete forestABC (by decide)).2⟩,
    ⟨by decide, by decide, (C1_translation_complete forestABCD (by decide)).2⟩⟩

/-- C2. Soundness: if `S` started at position 0 returns `VALID` with final
cursor `n`, the consumed prefix `input[0..n)` is the rendering of a forest
whose names are identifiers, the emitted text is that forest's translation,
and the text printed by `main` is a document of the output grammar. -/
theorem C2_translation_sound (input : List Char) (st : State)
    (h : parse LOG_NONE input = some (VALID, st)) :
    ∃ fr : Forest, fr.wellFormed = true ∧ input.take st.cc = fr.render ∧
      st.out = fr.translate ∧
      main LOG_NONE [input] = some (VALID, '{' :: (fr.translate ++ ['}'])) ∧
      OutDocument ('{' :: (fr.translate ++ ['}'])) := by
  obtain ⟨fr, hwf, hd, hcc, hout⟩ := parse_sound input st h
  refine ⟨fr, hwf, ?_, hout, ?_, ⟨fr.translate, Forest_translate_grammar fr hwf, rfl⟩⟩
  · rw [hcc]
    conv_lhs => rw [hd]
    exact List.take_left _ _
  · rw [main_none_of_parse input [] VALID st h, hout]

theorem C2_translation_sound_witness :
    ∃ fr : Forest, fr.wellFormed = true ∧ "A|B)x".toList.take 3 = fr.render ∧
      "\"A\":\x7b\x7d,\"B\":\x7b\x7d".toList = fr.translate ∧
      main LOG_NONE ["A|B)x".toList] = some (VALID, '{' :: (fr.translate ++ ['}'])) ∧
      OutDocument ('{' :: (fr.translate ++ ['}'])) :=
  C2_translation_sound "A|B)x".toList ⟨3, "\"A\":\x7b\x7d,\"B\":\x7b\x7d".toList⟩ (by decide)

/-- C3. For every identifier `id`, running the program with `id` alone as
the input returns `VALID` and prints exactly `{"id":{}}`. -/
theorem C3_single_identifier (id : List Char) (h : isIdentifier id = true) :
    main LOG_NONE [id] = some (VALID, '{' :: '"' :: (id ++ ['"', ':', '{', '}', '}'])) := by
  have hp := parse_render (Forest.single (Edge.leaf id))
    (by simpa [Forest.wellFormed, Edge.wellFormed] using h) [] (by decide) (by decide)
    (by decide)
  simp only [Forest.render, Edge.render, Forest.translate, Edge.translate,
    List.append_nil] at hp
  rw [main_none_of_parse id [] VALID _ hp]
  simp

theorem C3_single_identifier_witness :
    isIdentifier "node_1".toList = true ∧
      main LOG_NONE ["node_1".toList] = some (VALID, "\x7b\"node_1\":\x7b\x7d\x7d".toList) :=
  ⟨by decide, C3_single_identifier "node_1".toList (by decide)⟩

/-! ## Separator normalisation (C4) -/

theorem normChar_cases (c d : Char) (h : normChar c = normChar d) :
    c = d ∨ (isSep c = true ∧ isSep d = true) := by
  unfold normChar at h
  by_cases hc : c = '|' <;> by_cases hd : d = '|'
  · left; rw [hc, hd]
  · right
    rw [if_pos hc, if_neg hd] at h
    rw [hc, ← h]
    exact ⟨by decide, by decide⟩
  · right
    rw [if_neg hc, if_pos hd] at h
    rw [hd, h]
    exact ⟨by decide, by decide⟩
  · left
    rw [if_neg hc, if_neg hd] at h
    exact h

theorem curr_normSep (input : List Char) (st : State) :
    curr (normSep input) st = normChar (curr input st) := by
  simp only [curr, normSep, List.getD_eq_getElem?_getD, List.getElem?_map]
  cases input[st.cc]? with
  | none => rfl
  | some c => rfl

theorem curr_cases_of_normSep (i1 i2 : List Char) (h : normSep i1 = normSep i2) (st : State) :
    curr i1 st = curr i2 st ∨ (isSep (curr i1 st) = true ∧ isSep (curr i2 st) = true) := by
  apply normChar_cases
  rw [← curr_normSep, ← curr_normSep, h]

theorem isWStart_of_isSep (c : Char) (h : isSep c = true) : isWStart c = false := by
  simp only [isSep, Bool.or_eq_true, decide_eq_true_eq] at h
  rcases h with rfl | rfl <;> decide

theorem ne_close_of_isSep (c : Char) (h : isSep c = true) : c ≠ ')' := by
  intro hc
  rw [hc] at h
  revert h
  decide

theorem W_loop_normSep (i1 i2 : List Char) (h : normSep i1 = normSep i2) :
    ∀ (f : Nat) (st : State), W_loop i1 f st = W_loop i2 f st := by
  intro f
  induction f with
  | zero => intro st; rfl
  | succ f ih =>
    intro st
    rw [W_loop, W_loop]
    rcases curr_cases_of_normSep i1 i2 h st with hc | ⟨h1, h2⟩
    · rw [hc, ih]
    · rw [isWCont_of_isSep _ h1, isWCont_of_isSep _ h2]
      rfl

theorem W_normSep (lg : Int) (i1 i2 : List Char) (h : normSep i1 = normSep i2)
    (f : Nat) (st : State) : W lg i1 f st = W lg i2 f st := by
  unfold W
  simp only [curr_log]
  rcases curr_cases_of_normSep i1 i2 h st with hc | ⟨h1, h2⟩
  · rw [hc, W_loop_normSep i1 i2 h]
  · rw [isWStart_of_isSep _ h1, isWStart_of_isSep _ h2]
    rfl

theorem S_E_normSep (lg : Int) (i1 i2 : List Char) (h : normSep i1 = normSep i2) :
    ∀ f : Nat,
      (∀ st, S lg i1 f st = S lg i2 f st) ∧ (∀ st, E lg i1 f st = E lg i2 f st) := by
  intro f
  induction f with
  | zero => constructor <;> intro st <;> simp [S, E]
  | succ f ih =>
    obtain ⟨ihS, ihE⟩ := ih
    constructor
    · intro st
      rw [S_succ, S_succ, ihE]
      cases E lg i2 f (_log lg "called S\n".toList st) with
      | none => rfl
      | some p =>
        obtain ⟨r1, st1⟩ := p
        simp only
        rcases curr_cases_of_normSep i1 i2 h st1 with hc | ⟨h1, h2⟩
        · rw [hc, ihS]
        · simp only [isSep] at h1 h2
          rw [h1, h2, ihS]
    · intro st
      rw [E_succ, E_succ, W_normSep lg i1 i2 h]
      cases W lg i2 f (printf ['"'] (_log lg "called E\n".toList st)) with
      | none => rfl
      | some p =>
        obtain ⟨r1, st1⟩ := p
        simp only [curr_printf]
        by_cases hr : r1 = VALID
        · rw [if_pos hr, if_pos hr]
          rcases curr_cases_of_normSep i1 i2 h st1 with hc | ⟨h1, h2⟩
          · by_cases hp : curr i2 st1 = '('
            · rw [if_pos hp, if_pos (hc.trans hp), ihS]
              cases S lg i2 f (next (printf ['{'] (printf ['"', ':'] st1))) with
              | none => rfl
              | some p2 =>
                obtain ⟨r2, st2⟩ := p2
                simp only
                by_cases hr2 : r2 = VALID
                · rw [if_pos hr2, if_pos hr2]
                  rcases curr_cases_of_normSep i1 i2 h st2 with hc2 | ⟨h3, h4⟩
                  · rw [hc2]
                  · rw [if_neg (ne_close_of_isSep _ h3), if_neg (ne_close_of_isSep _ h4)]
                · rw [if_neg hr2, if_neg hr2]
            · rw [if_neg hp, if_neg (fun hq => hp (hc.symm.trans hq))]
          · rw [if_neg (ne_paren_of_isSep _ h1), if_neg (ne_paren_of_isSep _ h2)]
        · rw [if_neg hr, if_neg hr]

theorem length_eq_of_normSep (i1 i2 : List Char) (h : normSep i1 = normSep i2) :
    i1.length = i2.length := by
  have := congrArg List.length h
  simpa [normSep] using this

theorem parse_normSep (lg : Int) (i1 i2 : List Char) (h : normSep i1 = normSep i2) :
    parse lg i1 = parse lg i2 := by
  unfold parse
  rw [length_eq_of_normSep i1 i2 h]
  exact (S_E_normSep lg i1 i2 h _).1 _

theorem main_normSep (lg : Int) (i1 i2 : List Char) (h : normSep i1 = normSep i2) :
    main lg [i1] = main lg [i2] := by
  unfold main
  simp only
  rw [length_eq_of_normSep i1 i2 h, (S_E_normSep lg i1 i2 h _).1]

/-! ## The output alphabet -/

theorem Extends.refl (o : List Char) : Extends o o :=
  ⟨[], by simp, by simp⟩

theorem Extends.trans {o1 o2 o3 : List Char} (h1 : Extends o1 o2) (h2 : Extends o2 o3) :
    Extends o1 o3 := by
  obtain ⟨d1, rfl, hd1⟩ := h1
  obtain ⟨d2, rfl, hd2⟩ := h2
  refine ⟨d1 ++ d2, by simp, ?_⟩
  intro c hc
  rcases List.mem_append.mp hc with h | h
  · exact hd1 c h
  · exact hd2 c h

theorem Extends.append (o t : List Char) (ht : ∀ c ∈ t, isOutChar c = true) :
    Extends o (o ++ t) :=
  ⟨t, rfl, ht⟩

theorem isOutChar_of_isWCont (c : Char) (h : isWCont c = true) : isOutChar c = true := by
  simp [isOutChar, h]

theorem WRes_extends (input : List Char) (st : State) (r : Int × State)
    (h : WRes LOG_NONE input st r) : Extends st.out r.2.out := by
  rcases WRes_cases LOG_NONE input st r h with ⟨hs, rfl⟩ | ⟨hs, rfl⟩
  · simp only [log_none]
    apply Extends.append
    intro c hc
    rcases List.mem_cons.mp hc with rfl | hc
    · exact isOutChar_of_isWCont _ (isWCont_of_isWStart _ hs)
    · exact isOutChar_of_isWCont _ (identRun_all input _ c hc)
  · simp only [log_none]
    exact Extends.refl _

theorem Run_extends (input : List Char) :
    ∀ (b : Rule) (st : State) (r : Int × State),
      Run LOG_NONE input b st r → Extends st.out r.2.out := by
  intro b st r h
  induction h with
  | edgeNoIdent hW hr =>
    have h0 := WRes_extends input _ _ hW
    simp only [log_none, printf_out] at h0
    exact (Extends.append _ _ (by decide)).trans h0
  | edgeLeaf hW hc =>
    have h0 := WRes_extends input _ _ hW
    simp only [log_none, printf_out] at h0 ⊢
    exact (((Extends.append _ _ (by decide)).trans h0).trans
      (Extends.append _ _ (by decide))).trans (Extends.append _ _ (by decide))
  | edgeNode hW hc hS hc2 ih =>
    have h0 := WRes_extends input _ _ hW
    simp only [log_none, printf_out, next_out] at h0 ih ⊢
    exact (((((Extends.append _ _ (by decide)).trans h0).trans
      (Extends.append _ _ (by decide))).trans (Extends.append _ _ (by decide))).trans
      ih).trans (Extends.append _ _ (by decide))
  | edgeNoClose hW hc hS hc2 ih =>
    have h0 := WRes_extends input _ _ hW
    simp only [log_none, printf_out, next_out] at h0 ih ⊢
    exact ((((Extends.append _ _ (by decide)).trans h0).trans
      (Extends.append _ _ (by decide))).trans (Extends.append _ _ (by decide))).trans ih
  | edgeInnerFail hW hc hS hr2 ih =>
    have h0 := WRes_extends input _ _ hW
    simp only [log_none, printf_out, next_out] at h0 ih ⊢
    exact ((((Extends.append _ _ (by decide)).trans h0).trans
      (Extends.append _ _ (by decide))).trans (Extends.append _ _ (by decide))).trans ih
  | seqFail hE hr ih =>
    simpa only [log_none] using ih
  | seqLast hE hc ih =>
    simpa only [log_none] using ih
  | seqMore hE hc hS ih1 ih2 =>
    simp only [log_none, printf_out, next_out] at ih1 ih2 ⊢
    exact (ih1.trans (Extends.append _ _ (by decide))).trans ih2
  | seqMoreFail hE hc hS hr2 ih1 ih2 =>
    simp only [log_none, printf_out, next_out] at ih1 ih2 ⊢
    exact (ih1.trans (Extends.append _ _ (by decide))).trans ih2

theorem parse_out_chars (input : List Char) (r : Int) (st : State)
    (h : parse LOG_NONE input = some (r, st)) : ∀ c ∈ st.out, isOutChar c = true := by
  rw [parse_eq_iff_run] at h
  obtain ⟨d, hd, hall⟩ := Run_extends input _ _ _ h
  simp only [List.nil_append] at hd
  rw [hd]
  exact hall

/-- C4. Separator normalisation: two inputs that agree once every pipe is
replaced by a comma give the same result code, final cursor and emitted
text (and so the same printed text), and the emitted text never contains a
pipe. -/
theorem C4_separator_normalisation (i1 i2 : List Char) (h : normSep i1 = normSep i2) :
    parse LOG_NONE i1 = parse LOG_NONE i2 ∧ main LOG_NONE [i1] = main LOG_NONE [i2] ∧
      ∃ r st, parse LOG_NONE i1 = some (r, st) ∧ '|' ∉ st.out := by
  refine ⟨parse_normSep LOG_NONE i1 i2 h, main_normSep LOG_NONE i1 i2 h, ?_⟩
  obtain ⟨⟨r, st⟩, hp⟩ := parse_total LOG_NONE i1
  refine ⟨r, st, hp, ?_⟩
  intro hmem
  have := parse_out_chars i1 r st hp _ hmem
  revert this
  decide

theorem C4_separator_normalisation_witness :
    normSep "A|B".toList = normSep "A,B".toList ∧
      main LOG_NONE ["A|B".toList] = some (VALID, "\x7b\"A\":\x7b\x7d,\"B\":\x7b\x7d\x7d".toList) ∧
      main LOG_NONE ["A,B".toList] = some (VALID, "\x7b\"A\":\x7b\x7d,\"B\":\x7b\x7d\x7d".toList) ∧
      (parse LOG_NONE "A|B".toList = parse LOG_NONE "A,B".toList ∧
        main LOG_NONE ["A|B".toList] = main LOG_NONE ["A,B".toList] ∧
        ∃ r st, parse LOG_NONE "A|B".toList = some (r, st) ∧ '|' ∉ st.out) :=
  ⟨by decide, by decide, by decide,
    C4_separator_normalisation "A|B".toList "A,B".toList (by decide)⟩

/-! ## Unbalanced parentheses (C5) -/

theorem WRes_on_name (lg : Int) (input : List Char) (st : State) (name rest : List Char)
    (hn : isIdentifier name = true) (hd : input.drop st.cc = name ++ rest)
    (hr : isWCont (rest.headD NUL) = false) (r : Int) (s : State)
    (h : WRes lg input st (r, s)) : r = VALID ∧ s.cc = st.cc + name.length := by
  cases name with
  | nil => simp [isIdentifier] at hn
  | cons c cs =>
    rw [isIdentifier_cons] at hn
    have hc : curr input st = c := curr_of_drop_cons input st c (cs ++ rest) hd
    have hrest := drop_succ_of_drop_cons input st.cc c (cs ++ rest) hd
    have hrun : identRun input (st.cc + 1) = cs := by
      unfold identRun
      rw [hrest]
      exact takeWhile_exact isWCont NUL cs rest hn.2 hr
    rcases WRes_cases lg input st _ h with ⟨_, hres⟩ | ⟨hs, _⟩
    · have h1 := (Prod.mk.inj hres).1
      have h2 := (Prod.mk.inj hres).2
      refine ⟨h1, ?_⟩
      rw [h2, hrun]
      simp only [List.length_cons]
      omega
    · rw [hc, hn.1] at hs
      cases hs

theorem headD_drop_cases (l : List Char) (k : Nat) (d : Char) :
    (l.drop k).headD d = d ∨ (l.drop k).headD d ∈ l := by
  cases h : l.drop k with
  | nil => left; rfl
  | cons c cs =>
    right
    have : c ∈ l.drop k := by rw [h]; exact List.mem_cons_self _ _
    exact List.mem_of_mem_drop this

theorem curr_ne_of_suffix (input : List Char) (p : Nat) (rest : List Char) (c : Char)
    (hd : input.drop p = rest) (hc : c ∉ rest) (hn : c ≠ NUL) (st : State) (hp : p ≤ st.cc) :
    curr input st ≠ c := by
  obtain ⟨k, hk⟩ : ∃ k, st.cc = p + k := ⟨st.cc - p, by omega⟩
  rw [curr_eq_headD, hk, ← List.drop_drop, hd]
  rcases headD_drop_cases rest k NUL with h | h
  · rw [h]; exact fun e => hn e.symm
  · intro e
    rw [e] at h
    exact hc h

theorem edge_unclosed (lg : Int) (id rest : List Char) (hid : isIdentifier id = true)
    (hrest : ')' ∉ rest) (out : List Char) (r : Int) (s : State)
    (h : Run lg (id ++ '(' :: rest) Rule.edge ⟨0, out⟩ (r, s)) : r = ERR_INVALID_INPUT := by
  have key : ∀ (r1 : Int) (st1 : State),
      WRes lg (id ++ '(' :: rest) (printf ['"'] (_log lg "called E\n".toList ⟨0, out⟩))
        (r1, st1) → st1.cc = id.length :=
    fun r1 st1 hW => by
      have := (WRes_on_name lg _ _ id ('(' :: rest) hid (by simp)
        (by simp only [List.headD_cons]; decide) r1 st1 hW).2
      simpa using this
  have hopen : ∀ st1 : State, st1.cc = id.length →
      curr (id ++ '(' :: rest) st1 = '(' := by
    intro st1 h1
    rw [curr_of_drop _ st1 ('(' :: rest) (by rw [h1]; exact List.drop_left _ _)]
    rfl
  have hclose : ∀ (st1 st2 : State), st1.cc = id.length →
      CallOk (id ++ '(' :: rest) (next (printf ['{'] (printf ['"', ':'] st1))) (VALID, st2) →
      curr (id ++ '(' :: rest) st2 ≠ ')' := by
    intro st1 st2 h1 hok
    have hlt := hok.lt
    simp only [next_cc, printf_cc] at hlt
    apply curr_ne_of_suffix _ (id.length + 1) rest ')' _ hrest (by decide) st2 (by omega)
    simp
  cases h with
  | edgeNoIdent hW hr => rfl
  | edgeNoClose hW hc hS hc2 => rfl
  | edgeInnerFail hW hc hS hr2 => rfl
  | edgeLeaf hW hc => exact absurd (hopen _ (key _ _ hW)) hc
  | edgeNode hW hc hS hc2 =>
    exact absurd hc2 (hclose _ _ (key _ _ hW) (Run_callOk lg _ _ _ _ hS))

theorem seq_unclosed (lg : Int) (id rest : List Char) (hid : isIdentifier id = true)
    (hrest : ')' ∉ rest) (out : List Char) (r : Int) (s : State)
    (h : Run lg (id ++ '(' :: rest) Rule.seq ⟨0, out⟩ (r, s)) : r = ERR_INVALID_INPUT := by
  have hlog : _log lg "called S\n".toList ⟨0, out⟩ =
      ⟨0, (_log lg "called S\n".toList ⟨0, out⟩).out⟩ := by
    unfold _log printf
    split <;> rfl
  cases h with
  | seqFail hE hr => rfl
  | seqMoreFail hE hc hS hr2 => rfl
  | seqLast hE hc =>
    rw [hlog] at hE
    exact absurd (edge_unclosed lg id rest hid hrest _ _ _ hE).symm ERR_ne_VALID
  | seqMore hE hc hS =>
    rw [hlog] at hE
    exact absurd (edge_unclosed lg id rest hid hrest _ _ _ hE).symm ERR_ne_VALID

theorem main_code_of_parse (lg : Int) (input : List Char) (rest : List (List Char))
    (r : Int) (st : State) (h : parse lg input = some (r, st)) :
    ∃ out, main lg (input :: rest) = some (r, out) :=
  ⟨_, main_eq_of_parse lg input rest r st h⟩

/-- C5. Unbalanced parentheses fail: on an input `id ( rest` where `id` is an
identifier and `rest` contains no closing parenthesis, the parse and the
program return `ERR_INVALID_INPUT` (at every log level). -/
theorem C5_unbalanced_parentheses (lg : Int) (id rest : List Char)
    (hid : isIdentifier id = true) (hrest : ')' ∉ rest) :
    (∃ st, parse lg (id ++ '(' :: rest) = some (ERR_INVALID_INPUT, st)) ∧
      ∃ out, main lg [id ++ '(' :: rest] = some (ERR_INVALID_INPUT, out) := by
  obtain ⟨⟨r, st⟩, hp⟩ := parse_total lg (id ++ '(' :: rest)
  have hr := seq_unclosed lg id rest hid hrest [] r st ((parse_eq_iff_run _ _ _).mp hp)
  subst hr
  exact ⟨⟨st, hp⟩, main_code_of_parse lg _ [] _ st hp⟩

theorem C5_unbalanced_parentheses_witness :
    isIdentifier "A".toList = true ∧ ')' ∉ "B".toList ∧
      (∃ st, parse LOG_NONE "A(B".toList = some (ERR_INVALID_INPUT, st)) ∧
      ∃ out, main LOG_NONE ["A(B".toList] = some (ERR_INVALID_INPUT, out) :=
  ⟨by decide, by decide, C5_unbalanced_parentheses LOG_NONE "A".toList "B".toList
    (by decide) (by decide)⟩

/-! ## Trailing separators and trailing garbage (C6, C7) -/

theorem render_of_parse_all (s : List Char) (st : State)
    (h : parse LOG_NONE s = some (VALID, st)) (hend : st.cc = s.length) :
    ∃ fr : Forest, fr.wellFormed = true ∧ s = fr.render ∧
      st = ⟨fr.render.length, fr.translate⟩ := by
  obtain ⟨fr, hwf, hd, hcc, hout⟩ := parse_sound s st h
  rw [hend, List.drop_length, List.append_nil] at hd
  refine ⟨fr, hwf, hd, ?_⟩
  cases st
  simp only at hcc hout
  rw [hcc, hout]

theorem forest_then_sep (input : List Char) (c : Char) (hc : isSep c = true)
    (rest : List Char) (r2 : Int) (s2 : State) (hr : r2 ≠ VALID) :
    ∀ (fr : Forest), fr.wellFormed = true → ∀ (p : Nat) (out : List Char),
      input.drop p = fr.render ++ c :: rest →
      Run LOG_NONE input Rule.seq ⟨p + fr.render.length + 1, out ++ fr.translate ++ [',']⟩
        (r2, s2) →
      Run LOG_NONE input Rule.seq ⟨p, out⟩ (ERR_INVALID_INPUT, s2)
  | Forest.single e, hwf, p, out, hd, hrun => by
    simp only [Forest.wellFormed] at hwf
    simp only [Forest.render, Forest.translate] at hd hrun
    have hE := Edge_complete input e hwf p out _ hd
      (by simp only [List.headD_cons]; exact isWCont_of_isSep _ hc)
      (by simp only [List.headD_cons]; exact ne_paren_of_isSep _ hc)
    have hd1 := drop_of_drop_append input p e.render _ hd
    have hsep : isSep (input.getD (p + e.render.length) NUL) = true := by
      rw [charAt_of_drop input _ _ hd1]
      exact hc
    exact seqMoreFail_at input p out _ _ r2 s2 hE hsep hrun hr
  | Forest.cons e pipe tl, hwf, p, out, hd, hrun => by
    simp only [Forest.wellFormed, Bool.and_eq_true] at hwf
    simp only [Forest.render, Forest.translate] at hd hrun
    have hsep := sepChar_isSep pipe
    have hd0 : input.drop p = e.render ++ sepChar pipe :: (tl.render ++ c :: rest) := by
      simpa using hd
    have hE := Edge_complete input e hwf.1 p out _ hd0
      (isWCont_of_isSep _ hsep) (ne_paren_of_isSep _ hsep)
    have hd1 := drop_of_drop_append input p e.render _ hd0
    have hc1 : isSep (input.getD (p + e.render.length) NUL) = true := by
      rw [charAt_of_drop input _ _ hd1]
      exact hsep
    have hd2 := drop_succ_of_drop_cons input _ _ _ hd1
    have e1 : p + (e.render ++ sepChar pipe :: tl.render).length + 1 =
        p + e.render.length + 1 + tl.render.length + 1 := by
      simp only [List.length_append, List.length_cons]
      omega
    have e2 : out ++ (e.translate ++ ',' :: tl.translate) ++ [','] =
        out ++ e.translate ++ [','] ++ tl.translate ++ [','] := by simp
    rw [e1, e2] at hrun
    have hS := forest_then_sep input c hc rest r2 s2 hr tl hwf.2 (p + e.render.length + 1)
      (out ++ e.translate ++ [',']) hd2 hrun
    exact seqMoreFail_at input p out _ _ ERR_INVALID_INPUT s2 hE hc1 hS ERR_ne_VALID

theorem run_at_end_fails (lg : Int) (input : List Char) (b : Rule) (st : State)
    (r : Int) (s : State) (hst : input.length ≤ st.cc) (h : Run lg input b st (r, s)) :
    r ≠ VALID := by
  intro hr
  subst hr
  have hok := Run_callOk lg input b st _ h
  have h1 := hok.lt
  have h2 := hok.bound
  omega

/-- C6. A trailing separator fails: if the parse accepts `s` with the cursor
at the end of `s`, then `s` followed by a comma or by a pipe is rejected with
`ERR_INVALID_INPUT`, by the parse and by the program. -/
theorem C6_trailing_separator (s : List Char) (st : State)
    (h : parse LOG_NONE s = some (VALID, st)) (hend : st.cc = s.length)
    (c : Char) (hc : c = ',' ∨ c = '|') :
    (∃ s2, parse LOG_NONE (s ++ [c]) = some (ERR_INVALID_INPUT, s2)) ∧
      ∃ out, main LOG_NONE [s ++ [c]] = some (ERR_INVALID_INPUT, out) := by
  obtain ⟨fr, hwf, hs, -⟩ := render_of_parse_all s st h hend
  have hsep : isSep c = true := by
    rcases hc with rfl | rfl <;> decide
  obtain ⟨⟨r2, s2⟩, h2⟩ := runFn_total LOG_NONE (s ++ [c]) ((s ++ [c]).length + 3) Rule.seq
    ⟨0 + fr.render.length + 1, [] ++ fr.translate ++ [',']⟩
    (by simp only [fuelNeeded]; omega)
  have hrun2 := run_of_fuel LOG_NONE _ _ _ _ _ h2
  have hr2 : r2 ≠ VALID :=
    run_at_end_fails LOG_NONE _ _ _ r2 s2 (by simp [← hs]) hrun2
  have hrun := forest_then_sep (s ++ [c]) c hsep [] r2 s2 hr2 fr hwf 0 []
    (by simp [← hs]) hrun2
  have hp := (parse_eq_iff_run LOG_NONE (s ++ [c]) _).mpr hrun
  exact ⟨⟨s2, hp⟩, main_code_of_parse LOG_NONE _ [] _ s2 hp⟩

theorem C6_trailing_separator_witness :
    parse LOG_NONE "A".toList = some (VALID, ⟨1, "\"A\":\x7b\x7d".toList⟩) ∧
      (∃ s2, parse LOG_NONE "A,".toList = some (ERR_INVALID_INPUT, s2)) ∧
      ∃ out, main LOG_NONE ["A,".toList] = some (ERR_INVALID_INPUT, out) :=
  ⟨by decide, C6_trailing_separator "A".toList ⟨1, "\"A\":\x7b\x7d".toList⟩ (by decide) rfl
    ',' (Or.inl rfl)⟩

/-- C7. Trailing garbage is silently accepted: if the parse accepts `s` with
the cursor at the end of `s`, and the first character of `t` (if any) is not
a letter, digit, underscore, opening parenthesis, pipe or comma, then the
parse of `s ++ t` returns `VALID` with the same emitted text and the cursor
at `length s`, and the program prints the same text as for `s`. -/
theorem C7_trailing_garbage (s t : List Char) (st : State)
    (h : parse LOG_NONE s = some (VALID, st)) (hend : st.cc = s.length)
    (ht : ∀ c, t.head? = some c → isWCont c = false ∧ c ≠ '(' ∧ c ≠ '|' ∧ c ≠ ',') :
    parse LOG_NONE (s ++ t) = some (VALID, ⟨s.length, st.out⟩) ∧
      main LOG_NONE [s ++ t] = main LOG_NONE [s] := by
  obtain ⟨fr, hwf, hs, hst⟩ := render_of_parse_all s st h hend
  have hhead : isWCont (t.headD NUL) = false ∧ t.headD NUL ≠ '(' ∧
      isSep (t.headD NUL) = false := by
    cases t with
    | nil => exact ⟨by decide, by decide, by decide⟩
    | cons c cs =>
      obtain ⟨h1, h2, h3, h4⟩ := ht c rfl
      refine ⟨h1, h2, ?_⟩
      simp [isSep, h3, h4]
  have hp := parse_render fr hwf t hhead.1 hhead.2.1 hhead.2.2
  rw [← hs] at hp
  have hout : st.out = fr.translate := by rw [hst]
  rw [hout]
  refine ⟨hp, ?_⟩
  rw [main_none_of_parse _ [] _ _ hp, main_none_of_parse _ [] _ _ h, hout]

theorem C7_trailing_garbage_witness :
    parse LOG_NONE "A".toList = some (VALID, ⟨1, "\"A\":\x7b\x7d".toList⟩) ∧
      main LOG_NONE ["A)".toList] = some (VALID, "\x7b\"A\":\x7b\x7d\x7d".toList) ∧
      parse LOG_NONE "A)".toList = some (VALID, ⟨1, "\"A\":\x7b\x7d".toList⟩) ∧
      main LOG_NONE ["A)".toList] = main LOG_NONE ["A".toList] :=
  ⟨by decide, by decide,
    C7_trailing_garbage "A".toList ")".toList ⟨1, "\"A\":\x7b\x7d".toList⟩ (by decide) rfl
      (by
        intro c hc
        have : c = ')' := (Option.some.inj hc).symm
        subst this
        decide)⟩

/-! ## Result codes and the status line (C8, C9) -/

theorem W_codes (lg : Int) (input : List Char) (fuel : Nat) (st : State) (r : Int) (s : State)
    (h : W lg input fuel st = some (r, s)) : r = VALID ∨ r = ERR_INVALID_INPUT :=
  (WRes_callOk lg input st (r, s) ⟨fuel, h⟩).1

theorem E_codes (lg : Int) (input : List Char) (fuel : Nat) (st : State) (r : Int) (s : State)
    (h : E lg input fuel st = some (r, s)) : r = VALID ∨ r = ERR_INVALID_INPUT :=
  (Run_callOk lg input Rule.edge st (r, s) (run_of_fuel lg input fuel Rule.edge st _ h)).1

theorem S_codes (lg : Int) (input : List Char) (fuel : Nat) (st : State) (r : Int) (s : State)
    (h : S lg input fuel st = some (r, s)) : r = VALID ∨ r = ERR_INVALID_INPUT :=
  (Run_callOk lg input Rule.seq st (r, s) (run_of_fuel lg input fuel Rule.seq st _ h)).1

/-- C8. Result codes: the program always finishes with one of three distinct
codes. It returns `ERR_NO_INPUT` exactly when no argument is supplied, and
then writes nothing but the log text (no rule runs); otherwise its code is
the code returned by the top-level `S`, which is `VALID` or
`ERR_INVALID_INPUT`. The rules `W`, `E` and `S` return no other value. -/
theorem C8_result_codes (lg : Int) (args : List (List Char)) :
    (VALID ≠ ERR_NO_INPUT ∧ VALID ≠ ERR_INVALID_INPUT ∧ ERR_NO_INPUT ≠ ERR_INVALID_INPUT) ∧
    (∃ code out, main lg args = some (code, out) ∧
      (code = VALID ∨ code = ERR_NO_INPUT ∨ code = ERR_INVALID_INPUT) ∧
      (code = ERR_NO_INPUT ↔ args = []) ∧
      (args = [] → out = (_log lg "error: no input found!".toList ⟨0, []⟩).out) ∧
      (∀ input rest, args = input :: rest →
        (code = VALID ∨ code = ERR_INVALID_INPUT) ∧
        ∃ st, parse lg input = some (code, st))) ∧
    (∀ (input : List Char) (fuel : Nat) (st : State) (r : Int) (s : State),
      (W lg input fuel st = some (r, s) → r = VALID ∨ r = ERR_INVALID_INPUT) ∧
      (E lg input fuel st = some (r, s) → r = VALID ∨ r = ERR_INVALID_INPUT) ∧
      (S lg input fuel st = some (r, s) → r = VALID ∨ r = ERR_INVALID_INPUT)) := by
  refine ⟨⟨by decide, by decide, by decide⟩, ?_, ?_⟩
  · cases args with
    | nil =>
      refine ⟨ERR_NO_INPUT, _, rfl, Or.inr (Or.inl rfl), ⟨fun _ => rfl, fun _ => rfl⟩,
        fun _ => rfl, ?_⟩
      intro input rest h
      cases h
    | cons input rest =>
      obtain ⟨⟨r, st⟩, hp⟩ := parse_total lg input
      have hr := S_codes lg input _ _ r st hp
      refine ⟨r, _, main_eq_of_parse lg input rest r st hp, ?_, ⟨?_, ?_⟩, ?_, ?_⟩
      · rcases hr with h | h
        · exact Or.inl h
        · exact Or.inr (Or.inr h)
      · intro h
        rcases hr with h' | h'
        · rw [h'] at h
          exact absurd h (by decide)
        · rw [h'] at h
          exact absurd h (by decide)
      · intro h
        cases h
      · intro h
        cases h
      · intro input' rest' h
        cases h
        exact ⟨hr, st, hp⟩
  · intro input fuel st r s
    exact ⟨W_codes lg input fuel st r s, E_codes lg input fuel st r s,
      S_codes lg input fuel st r s⟩

theorem not_infix_of_missing_char (a b : List Char) (c : Char) (ha : c ∈ a) (hb : c ∉ b) :
    ¬ List.IsInfix a b := by
  intro h
  exact hb (h.subset ha)

theorem main_LOG_NONE_chars (input : List Char) (rest : List (List Char)) (r : Int)
    (out : List Char) (h : main LOG_NONE (input :: rest) = some (r, out)) :
    ∀ c ∈ out, isOutChar c = true := by
  obtain ⟨⟨r', st⟩, hp⟩ := parse_total LOG_NONE input
  rw [main_none_of_parse input rest r' st hp] at h
  have hout : out = '{' :: (st.out ++ ['}']) := by
    have := Option.some.inj h
    exact (Prod.mk.inj this).2.symm
  rw [hout]
  intro c hc
  rcases List.mem_cons.mp hc with rfl | hc
  · decide
  · rcases List.mem_append.mp hc with hc | hc
    · exact parse_out_chars input r' st hp c hc
    · have : c = '}' := by simpa using hc
      rw [this]
      decide

/-- C9 fails as stated: with the log level as initialised, the run without
an argument prints nothing at all, and the run on the malformed input `A(`
prints only the partial translation; neither contains its status line. -/
theorem C9_status_line_counterexample :
    (main LOG_NONE [] = some (ERR_NO_INPUT, []) ∧
      ¬ List.IsInfix "error: no input found!".toList ([] : List Char)) ∧
    (main LOG_NONE ["A(".toList] =
        some (ERR_INVALID_INPUT, "\x7b\"A\":\x7b\"\x7d".toList) ∧
      ¬ List.IsInfix "invalid input".toList "\x7b\"A\":\x7b\"\x7d".toList) := by
  refine ⟨⟨by decide, ?_⟩, ⟨by decide, ?_⟩⟩
  · exact not_infix_of_missing_char _ _ 'e' (by decide) (by decide)
  · exact not_infix_of_missing_char _ _ ' ' (by decide) (by decide)

/-- C9 as amended. Every run finishes; when the log level is `LOG_ALL` a
non-success run writes its status line to standard output, and with the log
level as initialised (`LOG_NONE`) a non-success run does not write it. -/
theorem C9_status_line_amended (args : List (List Char)) :
    (∃ code out, main LOG_ALL args = some (code, out) ∧
      (code ≠ VALID → List.IsInfix (statusLine args) out)) ∧
    (∃ code out, main LOG_NONE args = some (code, out) ∧
      (code ≠ VALID → ¬ List.IsInfix (statusLine args) out)) := by
  cases args with
  | nil =>
    refine ⟨⟨ERR_NO_INPUT, _, rfl, fun _ => ?_⟩, ⟨ERR_NO_INPUT, _, rfl, fun _ => ?_⟩⟩
    · exact List.infix_refl _
    · exact not_infix_of_missing_char _ _ 'e' (by decide) (by decide)
  | cons input rest =>
    constructor
    · obtain ⟨⟨r, st⟩, hp⟩ := parse_total LOG_ALL input
      refine ⟨r, _, main_eq_of_parse LOG_ALL input rest r st hp, ?_⟩
      intro hr
      rw [if_neg hr]
      refine ⟨'{' :: (st.out ++ ['}']), ['\n'], ?_⟩
      simp [_log, printf, statusLine]
    · obtain ⟨⟨r, st⟩, hp⟩ := parse_total LOG_NONE input
      have hm := main_none_of_parse input rest r st hp
      refine ⟨r, _, hm, ?_⟩
      intro _
      apply not_infix_of_missing_char _ _ ' ' (by simp only [statusLine]; decide)
      intro hmem
      have := main_LOG_NONE_chars input rest r _ hm ' ' hmem
      revert this
      decide

/-! ## The identifier rule (C10) -/

theorem identRun_getD (input : List Char) (p j : Nat) (hj : j < (identRun input p).length) :
    isWCont (input.getD (p + j) NUL) = true := by
  have hsplit := identRun_split input p
  have h1 : input.getD (p + j) NUL = (input.drop p).getD j NUL := by
    simp [List.getD_eq_getElem?_getD, List.getElem?_drop]
  rw [h1, hsplit, List.getD_eq_getElem?_getD, List.getElem?_append_left hj,
    List.getElem?_eq_getElem hj]
  exact identRun_all input p _ (List.getElem_mem _)

theorem take_ident (input : List Char) (st : State) (h : st.cc < input.length) :
    (input.drop st.cc).take (1 + (identRun input (st.cc + 1)).length) =
      curr input st :: identRun input (st.cc + 1) := by
  rw [drop_eq_curr_cons input st h, identRun_split input (st.cc + 1), Nat.add_comm 1,
    List.take_succ_cons, List.take_left]

/-- C10. Identifier rule, maximal munch: when the current character is a
letter or underscore, `W` (with fuel for the rest of the string) returns
`VALID`, stops at the least position `q` after the start whose character is
not a letter, digit or underscore, and emits exactly `input[p..q)`. -/
theorem C10_identifier_success (input : List Char) (st : State) (fuel : Nat)
    (hs : isWStart (curr input st) = true) (hf : input.length - st.cc ≤ fuel) :
    ∃ q, W LOG_NONE input fuel st =
        some (VALID, ⟨q, st.out ++ (input.drop st.cc).take (q - st.cc)⟩) ∧
      st.cc < q ∧ isWCont (input.getD q NUL) = false ∧
      (∀ k, st.cc < k → k < q → isWCont (input.getD k NUL) = true) ∧
      (input.drop st.cc).take (q - st.cc) ≠ [] := by
  have hlt := cc_lt_of_isWStart input st hs
  have hlen := identRun_length_le input (st.cc + 1)
  have htake : (input.drop st.cc).take
      (st.cc + 1 + (identRun input (st.cc + 1)).length - st.cc) =
      curr input st :: identRun input (st.cc + 1) := by
    rw [← take_ident input st hlt]
    congr 1
    omega
  refine ⟨st.cc + 1 + (identRun input (st.cc + 1)).length, ?_, by omega, ?_, ?_, ?_⟩
  · rw [W_spec_valid LOG_NONE input fuel st hs (by omega), htake]
    simp
  · exact identRun_stop input (st.cc + 1)
  · intro k hk1 hk2
    obtain ⟨j, rfl⟩ : ∃ j, k = st.cc + 1 + j := ⟨k - (st.cc + 1), by omega⟩
    exact identRun_getD input (st.cc + 1) j (by omega)
  · rw [htake]
    exact List.cons_ne_nil _ _

theorem C10_identifier_success_witness :
    isWStart (curr "x(ab_1,c)".toList ⟨2, []⟩) = true ∧
      ∃ q, W LOG_NONE "x(ab_1,c)".toList 7 ⟨2, []⟩ =
          some (VALID, ⟨q, [] ++ ("x(ab_1,c)".toList.drop 2).take (q - 2)⟩) ∧
        2 < q ∧ isWCont ("x(ab_1,c)".toList.getD q NUL) = false ∧
        (∀ k, 2 < k → k < q → isWCont ("x(ab_1,c)".toList.getD k NUL) = true) ∧
        ("x(ab_1,c)".toList.drop 2).take (q - 2) ≠ [] :=
  ⟨by decide, C10_identifier_success "x(ab_1,c)".toList ⟨2, []⟩ 7 (by decide) (by decide)⟩

/-! ## Failure of the identifier and edge rules (C11, C12) -/

theorem curr_past_end (input : List Char) (st : State) (h : input.length ≤ st.cc) :
    curr input st = NUL :=
  curr_of_drop_nil input st (List.drop_eq_nil_of_le h)

theorem isWStart_digit (c : Char) (h1 : '0' ≤ c) (h2 : c ≤ '9') : isWStart c = false := by
  have e1 : (48 : Nat) ≤ c.val.toNat := h1
  have e2 : c.val.toNat ≤ 57 := h2
  have a1 : ¬ ('A' ≤ c) := fun h => by
    have : (65 : Nat) ≤ c.val.toNat := h
    omega
  have a2 : ¬ ('a' ≤ c) := fun h => by
    have : (97 : Nat) ≤ c.val.toNat := h
    omega
  have a3 : c ≠ '_' := fun h => by
    rw [h] at e2
    exact absurd e2 (by decide)
  simp [isWStart, a1, a2, a3]

theorem W_err_iff (lg : Int) (input : List Char) (fuel : Nat) (st : State) (r : Int)
    (s : State) (h : W lg input fuel st = some (r, s)) (hr : r = ERR_INVALID_INPUT) :
    isWStart (curr input st) = false ∧ s = _log lg "called W\n".toList st := by
  rcases WRes_cases lg input st (r, s) ⟨fuel, h⟩ with ⟨_, he⟩ | ⟨hs, he⟩
  · have := (Prod.mk.inj he).1
    rw [hr] at this
    exact absurd this ERR_ne_VALID
  · exact ⟨hs, (Prod.mk.inj he).2⟩

/-- C11. Identifier rule failure: `W` returns `ERR_INVALID_INPUT` with the
cursor and the output unchanged exactly when the current character is not a
letter or underscore; this is the only way `W` fails, it needs no fuel, and
it covers a digit and the end of the input. -/
theorem C11_identifier_failure (input : List Char) (fuel : Nat) (st : State) :
    (W LOG_NONE input fuel st = some (ERR_INVALID_INPUT, st) ↔
      isWStart (curr input st) = false) ∧
    (∀ s, W LOG_NONE input fuel st = some (ERR_INVALID_INPUT, s) →
      s = st ∧ isWStart (curr input st) = false) ∧
    (('0' ≤ curr input st ∧ curr input st ≤ '9') ∨ input.length ≤ st.cc →
      W LOG_NONE input fuel st = some (ERR_INVALID_INPUT, st)) := by
  have hfail : isWStart (curr input st) = false →
      W LOG_NONE input fuel st = some (ERR_INVALID_INPUT, st) := by
    intro hs
    rw [W_spec_invalid LOG_NONE input fuel st hs, log_none]
  refine ⟨⟨fun h => (W_err_iff LOG_NONE input fuel st _ _ h rfl).1, hfail⟩, ?_, ?_⟩
  · intro s h
    have := W_err_iff LOG_NONE input fuel st _ _ h rfl
    exact ⟨by rw [this.2, log_none], this.1⟩
  · intro h
    apply hfail
    rcases h with ⟨h1, h2⟩ | h
    · exact isWStart_digit _ h1 h2
    · rw [curr_past_end input st h]
      exact isWStart_NUL

theorem E_no_identifier (lg : Int) (input : List Char) (fuel : Nat) (st : State)
    (hs : isWStart (curr input st) = false) :
    E lg input (fuel + 1) st =
      some (ERR_INVALID_INPUT,
        _log lg "called W\n".toList (printf ['"'] (_log lg "called E\n".toList st))) := by
  rw [E_succ, W_spec_invalid lg input fuel _ (by simpa using hs)]
  simp only
  rw [if_neg ERR_ne_VALID]

/-- C12. Edge rule failure on a missing identifier: when the current
character is not a letter or underscore, `E` returns `ERR_INVALID_INPUT`,
leaves the cursor where it was and has written exactly one double quote. -/
theorem C12_edge_failure (input : List Char) (fuel : Nat) (st : State)
    (hs : isWStart (curr input st) = false) :
    E LOG_NONE input (fuel + 1) st =
      some (ERR_INVALID_INPUT, ⟨st.cc, st.out ++ ['"']⟩) := by
  rw [E_no_identifier LOG_NONE input fuel st hs]
  simp [printf]

theorem C12_edge_failure_witness :
    isWStart (curr [] ⟨0, ['{']⟩) = false ∧
      E LOG_NONE [] (0 + 1) ⟨0, ['{']⟩ = some (ERR_INVALID_INPUT, ⟨0, ['{'] ++ ['"']⟩) ∧
      main LOG_NONE [[]] = some (ERR_INVALID_INPUT, "\x7b\"\x7d".toList) :=
  ⟨by decide, C12_edge_failure [] 0 ⟨0, ['{']⟩ (by decide), by decide⟩

/-! ## The instrumented automatons: erasure -/

@[simp] theorem readT_st (ts : TState) : (readT ts).st = ts.st := rfl

@[simp] theorem nextT_st (ts : TState) : (nextT ts).st = next ts.st := rfl

@[simp] theorem printfT_st (text : List Char) (ts : TState) :
    (printfT text ts).st = printf text ts.st := rfl

@[simp] theorem logT_st (lg : Int) (text : List Char) (ts : TState) :
    (logT lg text ts).st = _log lg text ts.st := rfl

theorem ST_succ (lg : Int) (input : List Char) (fuel : Nat) (ts : TState) :
    ST lg input (fuel + 1) ts =
      match ET lg input fuel (logT lg "called S\n".toList ts) with
      | none => none
      | some (r, ts) =>
        if r = VALID then
          if curr input (readT ts).st = '|' || curr input (readT ts).st = ',' then
            match ST lg input fuel (nextT (printfT [','] (readT ts))) with
            | none => none
            | some (r, ts) =>
              if r = VALID then some (VALID, ts)
              else some (ERR_INVALID_INPUT, ts)
          else
            some (VALID, readT ts)
        else
          some (ERR_INVALID_INPUT, ts) := by
  rw [ST]

theorem ET_succ (lg : Int) (input : List Char) (fuel : Nat) (ts : TState) :
    ET lg input (fuel + 1) ts =
      match WT lg input fuel (printfT ['"'] (logT lg "called E\n".toList ts)) with
      | none => none
      | some (r, ts) =>
        if r = VALID then
          if curr input (readT (printfT ['"', ':'] ts)).st = '(' then
            match ST lg input fuel
              (nextT (printfT ['{'] (readT (printfT ['"', ':'] ts)))) with
            | none => none
            | some (r, ts) =>
              if r = VALID then
                if curr input (readT ts).st = ')' then
                  some (VALID, nextT (printfT ['}'] (readT ts)))
                else
                  some (ERR_INVALID_INPUT, readT ts)
              else
                some (ERR_INVALID_INPUT, ts)
          else
            some (VALID, printfT ['{', '}'] (readT (printfT ['"', ':'] ts)))
        else
          some (ERR_INVALID_INPUT, ts) := by
  rw [ET]

theorem W_loopT_erase (input : List Char) :
    ∀ (f : Nat) (ts : TState),
      (W_loopT input f ts).map TState.st = W_loop input f ts.st := by
  intro f
  induction f with
  | zero => intro ts; rfl
  | succ f ih =>
    intro ts
    rw [W_loopT, W_loop]
    simp only [readT_st]
    split
    · rw [ih]
      rfl
    · rfl

theorem WT_erase (lg : Int) (input : List Char) (f : Nat) (ts : TState) :
    (WT lg input f ts).map eraseRes = W lg input f ts.st := by
  unfold WT W
  simp only [readT_st, logT_st]
  split
  · have h := W_loopT_erase input f
      (nextT (printfT [curr input (_log lg "called W\n".toList ts.st)]
        (readT (readT (logT lg "called W\n".toList ts)))))
    simp only [nextT_st, printfT_st, readT_st, logT_st] at h
    rw [← h]
    cases W_loopT input f (nextT (printfT [curr input (_log lg "called W\n".toList ts.st)]
      (readT (readT (logT lg "called W\n".toList ts))))) <;> rfl
  · rfl

theorem ST_ET_erase (lg : Int) (input : List Char) :
    ∀ f : Nat,
      (∀ ts, (ST lg input f ts).map eraseRes = S lg input f ts.st) ∧
      (∀ ts, (ET lg input f ts).map eraseRes = E lg input f ts.st) := by
  intro f
  induction f with
  | zero => constructor <;> intro ts <;> simp [S, E, ST, ET]
  | succ f ih =>
    obtain ⟨ihS, ihE⟩ := ih
    constructor
    · intro ts
      rw [ST_succ, S_succ]
      have hE := ihE (logT lg "called S\n".toList ts)
      simp only [logT_st] at hE
      rw [← hE]
      cases ET lg input f (logT lg "called S\n".toList ts) with
      | none => rfl
      | some p =>
        obtain ⟨r1, t1⟩ := p
        simp only [Option.map_some', eraseRes, readT_st]
        split
        · split
          · have hS := ihS (nextT (printfT [','] (readT t1)))
            simp only [nextT_st, printfT_st, readT_st] at hS
            rw [← hS]
            cases ST lg input f (nextT (printfT [','] (readT t1))) with
            | none => rfl
            | some p2 =>
              obtain ⟨r2, t2⟩ := p2
              simp only [Option.map_some', eraseRes]
              split <;> rfl
          · rfl
        · rfl
    · intro ts
      rw [ET_succ, E_succ]
      have hW := WT_erase lg input f (printfT ['"'] (logT lg "called E\n".toList ts))
      simp only [printfT_st, logT_st] at hW
      rw [← hW]
      cases WT lg input f (printfT ['"'] (logT lg "called E\n".toList ts)) with
      | none => rfl
      | some p =>
        obtain ⟨r1, t1⟩ := p
        simp only [Option.map_some', eraseRes, readT_st, printfT_st, curr_printf]
        split
        · split
          · have hS := ihS (nextT (printfT ['{'] (readT (printfT ['"', ':'] t1))))
            simp only [nextT_st, printfT_st, readT_st] at hS
            rw [← hS]
            cases ST lg input f (nextT (printfT ['{'] (readT (printfT ['"', ':'] t1)))) with
            | none => rfl
            | some p2 =>
              obtain ⟨r2, t2⟩ := p2
              simp only [Option.map_some', eraseRes, readT_st]
              split
              · split <;> rfl
              · rfl
          · rfl
        · rfl

theorem parseT_erase (lg : Int) (input : List Char) :
    (parseT lg input).map eraseRes = parse lg input :=
  (ST_ET_erase lg input _).1 _

/-! ## The instrumented automatons: what the trace records -/

theorem guardedFrom_append (d2 : List Event) (h2 : ∀ seen, guardedFrom seen d2 = true) :
    ∀ (d1 : List Event) (seen : List Nat), guardedFrom seen d1 = true →
      guardedFrom seen (d1 ++ d2) = true := by
  intro d1
  induction d1 with
  | nil => intro seen _; exact h2 seen
  | cons e es ih =>
    intro seen h
    cases e with
    | read k =>
      simp only [List.cons_append, guardedFrom] at h ⊢
      exact ih _ h
    | adv k =>
      simp only [List.cons_append, guardedFrom, Bool.and_eq_true] at h ⊢
      exact ⟨h.1, ih _ h.2⟩

theorem advances_append (d1 d2 : List Event) :
    advances (d1 ++ d2) = advances d1 + advances d2 := by
  induction d1 with
  | nil => simp [advances]
  | cons e es ih =>
    cases e with
    | read k => simpa [advances] using ih
    | adv k =>
      show advances (es ++ d2) + 1 = advances es + 1 + advances d2
      omega

theorem TraceOk.idle (input : List Char) (ts : TState) : TraceOk input ts ts :=
  ⟨Nat.le_refl _, [], by simp, rfl, by simp, by simp, fun _ => rfl⟩

theorem TraceOk.same (input : List Char) (ts t : TState) (hcc : t.st.cc = ts.st.cc)
    (htr : t.trace = ts.trace) : TraceOk input ts t :=
  ⟨by omega, [], by simp [htr], by simp [advances, hcc], by simp, by simp, fun _ => rfl⟩

theorem TraceOk.andThen {input : List Char} {ts t u : TState}
    (h1 : TraceOk input ts t) (h2 : TraceOk input t u) : TraceOk input ts u := by
  obtain ⟨hle1, d1, htr1, hn1, hr1, ha1, hg1⟩ := h1
  obtain ⟨hle2, d2, htr2, hn2, hr2, ha2, hg2⟩ := h2
  refine ⟨by omega, d1 ++ d2, by rw [htr2, htr1, List.append_assoc], ?_, ?_, ?_, ?_⟩
  · rw [advances_append]
    omega
  · intro k hk
    rcases List.mem_append.mp hk with h | h
    · have := hr1 k h
      omega
    · have := hr2 k h
      omega
  · intro k hk
    rcases List.mem_append.mp hk with h | h
    · have := ha1 k h
      exact ⟨this.1, by omega, this.2.2⟩
    · have := ha2 k h
      exact ⟨by omega, this.2.1, this.2.2⟩
  · intro seen
    exact guardedFrom_append d2 hg2 d1 seen (hg1 seen)

theorem TraceOk.read (input : List Char) (ts : TState) : TraceOk input ts (readT ts) := by
  refine ⟨Nat.le_refl _, [Event.read ts.st.cc], rfl, rfl, ?_, ?_, fun _ => rfl⟩
  · intro k hk
    have : k = ts.st.cc := by simpa using hk
    simp [this]
  · intro k hk
    simp at hk

theorem TraceOk.step (input : List Char) (ts : TState) (text : List Char)
    (h : isLangChar (curr input ts.st) = true) :
    TraceOk input ts (nextT (printfT text (readT ts))) := by
  refine ⟨by simp, [Event.read ts.st.cc, Event.adv ts.st.cc], ?_, ?_, ?_, ?_, ?_⟩
  · simp [nextT, printfT, readT]
  · simp [advances]
  · intro k hk
    have : k = ts.st.cc := by simpa using hk
    simp [this]
  · intro k hk
    have : k = ts.st.cc := by simpa using hk
    subst this
    exact ⟨Nat.le_refl _, by simp, h⟩
  · intro seen
    simp [guardedFrom]

theorem TraceOk.log (input : List Char) (lg : Int) (text : List Char) (ts : TState) :
    TraceOk input ts (logT lg text ts) :=
  TraceOk.same input _ _ (by simp) rfl

theorem TraceOk.printf (input : List Char) (text : List Char) (ts : TState) :
    TraceOk input ts (printfT text ts) :=
  TraceOk.same input _ _ (by simp) rfl

theorem isLangChar_of_isWCont (c : Char) (h : isWCont c = true) : isLangChar c = true := by
  simp [isLangChar, h]

theorem isLangChar_of_isSep (c : Char) (h : isSep c = true) : isLangChar c = true := by
  simp [isLangChar, h]

theorem isLangChar_open : isLangChar '(' = true := by decide

theorem isLangChar_close : isLangChar ')' = true := by decide

theorem ite_some_snd {c : Prop} [Decidable c] (a b r : Int) (t u : TState)
    (h : (if c then some (a, u) else some (b, u)) = some (r, t)) : t = u := by
  split at h <;> exact ((Prod.mk.inj (Option.some.inj h)).2).symm

theorem W_loopT_ok (input : List Char) :
    ∀ (f : Nat) (ts t : TState), W_loopT input f ts = some t → TraceOk input ts t := by
  intro f
  induction f with
  | zero => intro ts t h; simp [W_loopT] at h
  | succ f ih =>
    intro ts t h
    rw [W_loopT] at h
    simp only [readT_st] at h
    split at h
    · rename_i hc
      have h1 := TraceOk.read input ts
      have h2 := TraceOk.step input (readT ts) [curr input ts.st]
        (isLangChar_of_isWCont _ hc)
      exact (h1.andThen h2).andThen (ih _ _ h)
    · cases h
      exact TraceOk.read input ts

theorem WT_ok (lg : Int) (input : List Char) (f : Nat) (ts : TState) (r : Int) (t : TState)
    (h : WT lg input f ts = some (r, t)) : TraceOk input ts t := by
  unfold WT at h
  simp only [readT_st, logT_st, curr_log] at h
  have h0 := (TraceOk.log input lg "called W\n".toList ts).andThen (TraceOk.read input _)
  split at h
  · rename_i hc
    have h2 := TraceOk.step input (readT (logT lg "called W\n".toList ts)) [curr input ts.st]
      (by
        simp only [readT_st, logT_st, curr_log]
        exact isLangChar_of_isWCont _ (isWCont_of_isWStart _ hc))
    cases hl : W_loopT input f (nextT (printfT [curr input ts.st]
        (readT (readT (logT lg "called W\n".toList ts))))) with
    | none => rw [hl] at h; simp at h
    | some u =>
      rw [hl] at h
      have : t = u := ((Prod.mk.inj (Option.some.inj h)).2).symm
      subst this
      exact (h0.andThen h2).andThen (W_loopT_ok input f _ _ hl)
  · have : t = _ := ((Prod.mk.inj (Option.some.inj h)).2).symm
    subst this
    exact h0

theorem ST_ET_ok (lg : Int) (input : List Char) :
    ∀ f : Nat,
      (∀ ts r t, ST lg input f ts = some (r, t) → TraceOk input ts t) ∧
      (∀ ts r t, ET lg input f ts = some (r, t) → TraceOk input ts t) := by
  intro f
  induction f with
  | zero => constructor <;> intro ts r t h <;> simp [ST, ET] at h
  | succ f ih =>
    obtain ⟨ihS, ihE⟩ := ih
    constructor
    · intro ts r t h
      rw [ST_succ] at h
      cases hE : ET lg input f (logT lg "called S\n".toList ts) with
      | none => rw [hE] at h; simp at h
      | some p =>
        obtain ⟨r1, t1⟩ := p
        rw [hE] at h
        simp only [readT_st] at h
        have ok1 := (TraceOk.log input lg "called S\n".toList ts).andThen (ihE _ _ _ hE)
        split at h
        · split at h
          · rename_i hc
            have step := TraceOk.step input t1 [',']
              (isLangChar_of_isSep _ (by simpa [isSep] using hc))
            cases hS : ST lg input f (nextT (printfT [','] (readT t1))) with
            | none => rw [hS] at h; simp at h
            | some p2 =>
              obtain ⟨r2, t2⟩ := p2
              rw [hS] at h
              simp only at h
              have := ite_some_snd _ _ _ _ _ h
              subst this
              exact (ok1.andThen step).andThen (ihS _ _ _ hS)
          · have : t = readT t1 := ((Prod.mk.inj (Option.some.inj h)).2).symm
            subst this
            exact ok1.andThen (TraceOk.read input t1)
        · have : t = t1 := ((Prod.mk.inj (Option.some.inj h)).2).symm
          subst this
          exact ok1
    · intro ts r t h
      rw [ET_succ] at h
      cases hW : WT lg input f (printfT ['"'] (logT lg "called E\n".toList ts)) with
      | none => rw [hW] at h; simp at h
      | some p =>
        obtain ⟨r1, t1⟩ := p
        rw [hW] at h
        simp only [readT_st, printfT_st, curr_printf] at h
        have ok1 := ((TraceOk.log input lg "called E\n".toList ts).andThen
          (TraceOk.printf input ['"'] _)).andThen (WT_ok lg input f _ _ _ hW)
        have ok2 := ok1.andThen (TraceOk.printf input ['"', ':'] t1)
        split at h
        · split at h
          · rename_i hc
            have step := TraceOk.step input (printfT ['"', ':'] t1) ['{']
              (by
                simp only [printfT_st, curr_printf]
                rw [hc]
                exact isLangChar_open)
            cases hS : ST lg input f
                (nextT (printfT ['{'] (readT (printfT ['"', ':'] t1)))) with
            | none => rw [hS] at h; simp at h
            | some p2 =>
              obtain ⟨r2, t2⟩ := p2
              rw [hS] at h
              simp only at h
              have ok3 := (ok2.andThen step).andThen (ihS _ _ _ hS)
              split at h
              · split at h
                · rename_i hc2
                  have : t = _ := ((Prod.mk.inj (Option.some.inj h)).2).symm
                  subst this
                  exact ok3.andThen (TraceOk.step input t2 ['}']
                    (by rw [hc2]; exact isLangChar_close))
                · have : t = _ := ((Prod.mk.inj (Option.some.inj h)).2).symm
                  subst this
                  exact ok3.andThen (TraceOk.read input t2)
              · have : t = t2 := ((Prod.mk.inj (Option.some.inj h)).2).symm
                subst this
                exact ok3
          · have : t = _ := ((Prod.mk.inj (Option.some.inj h)).2).symm
            subst this
            exact (ok2.andThen (TraceOk.read input _)).andThen (TraceOk.printf input _ _)
        · have : t = t1 := ((Prod.mk.inj (Option.some.inj h)).2).symm
          subst this
          exact ok1

/-! ## Cursor discipline (C13, C14) -/

theorem traced_of_erased {f : Option (Int × TState)} {g : Option (Int × State)}
    (he : f.map eraseRes = g) (r : Int × State) (hg : g = some r) :
    ∃ t, f = some (r.1, t) ∧ r.2 = t.st := by
  rw [hg] at he
  cases f with
  | none => simp at he
  | some p =>
    obtain ⟨r1, t⟩ := p
    simp only [Option.map_some', eraseRes, Option.some.injEq] at he
    refine ⟨t, ?_, ?_⟩
    · rw [← he]
    · rw [← he]

theorem WT_total (lg : Int) (input : List Char) (fuel : Nat) (ts : TState)
    (hf : input.length - ts.st.cc + 1 ≤ fuel) :
    ∃ r t, WT lg input fuel ts = some (r, t) ∧ W lg input fuel ts.st = some (r, t.st) ∧
      TraceOk input ts t ∧ (r = VALID → ts.st.cc < t.st.cc) := by
  obtain ⟨⟨r, s⟩, hW⟩ := WRes_total lg input fuel ts.st hf
  obtain ⟨t, ht, hs⟩ := traced_of_erased (WT_erase lg input fuel ts) (r, s) hW
  simp only at ht hs
  subst hs
  refine ⟨r, t, ht, hW, WT_ok lg input fuel ts r t ht, ?_⟩
  intro hr
  subst hr
  exact (WRes_callOk lg input ts.st _ ⟨fuel, hW⟩).lt

theorem ET_total (lg : Int) (input : List Char) (fuel : Nat) (ts : TState)
    (hf : input.length - ts.st.cc + 2 ≤ fuel) :
    ∃ r t, ET lg input fuel ts = some (r, t) ∧ E lg input fuel ts.st = some (r, t.st) ∧
      TraceOk input ts t ∧ (r = VALID → ts.st.cc < t.st.cc) := by
  obtain ⟨⟨r, s⟩, hE⟩ := runFn_total lg input fuel Rule.edge ts.st hf
  have hE1 : E lg input fuel ts.st = some (r, s) := hE
  obtain ⟨t, ht, hs⟩ := traced_of_erased ((ST_ET_erase lg input fuel).2 ts) (r, s) hE1
  simp only at ht hs
  subst hs
  refine ⟨r, t, ht, hE1, (ST_ET_ok lg input fuel).2 ts r t ht, ?_⟩
  intro hr
  subst hr
  exact (Run_callOk lg input _ _ _ (run_of_fuel lg input fuel Rule.edge _ _ hE)).lt

theorem ST_total (lg : Int) (input : List Char) (fuel : Nat) (ts : TState)
    (hf : input.length - ts.st.cc + 3 ≤ fuel) :
    ∃ r t, ST lg input fuel ts = some (r, t) ∧ S lg input fuel ts.st = some (r, t.st) ∧
      TraceOk input ts t ∧ (r = VALID → ts.st.cc < t.st.cc) := by
  obtain ⟨⟨r, s⟩, hS⟩ := runFn_total lg input fuel Rule.seq ts.st hf
  have hS1 : S lg input fuel ts.st = some (r, s) := hS
  obtain ⟨t, ht, hs⟩ := traced_of_erased ((ST_ET_erase lg input fuel).1 ts) (r, s) hS1
  simp only at ht hs
  subst hs
  refine ⟨r, t, ht, hS1, (ST_ET_ok lg input fuel).1 ts r t ht, ?_⟩
  intro hr
  subst hr
  exact (Run_callOk lg input _ _ _ (run_of_fuel lg input fuel Rule.seq _ _ hS)).lt

/-- C13. Cursor monotonicity. Only `next` changes the cursor, by exactly one.
For each of `W`, `E` and `S`, from any starting state and with fuel for the
rest of the string, the instrumented call returns what the plain call
returns; its final cursor is not before the initial one and strictly after
it when the result is `VALID`; the cursor moved by the number of recorded
`next` calls; and every recorded `next` advances from an index that `curr`
read earlier in the same call. -/
theorem C13_cursor_monotone (lg : Int) (input : List Char) (fuel : Nat) (ts : TState)
    (hf : input.length - ts.st.cc + 3 ≤ fuel) :
    ((∀ st : State, (next st).cc = st.cc + 1) ∧
      ∀ (text : List Char) (st : State),
        (printf text st).cc = st.cc ∧ (_log lg text st).cc = st.cc) ∧
    (∃ r t, WT lg input fuel ts = some (r, t) ∧ W lg input fuel ts.st = some (r, t.st) ∧
      TraceOk input ts t ∧ (r = VALID → ts.st.cc < t.st.cc)) ∧
    (∃ r t, ET lg input fuel ts = some (r, t) ∧ E lg input fuel ts.st = some (r, t.st) ∧
      TraceOk input ts t ∧ (r = VALID → ts.st.cc < t.st.cc)) ∧
    (∃ r t, ST lg input fuel ts = some (r, t) ∧ S lg input fuel ts.st = some (r, t.st) ∧
      TraceOk input ts t ∧ (r = VALID → ts.st.cc < t.st.cc)) :=
  ⟨⟨fun _ => rfl, fun _ _ => ⟨rfl, log_cc _ _ _⟩⟩,
    WT_total lg input fuel ts (by omega), ET_total lg input fuel ts (by omega),
    ST_total lg input fuel ts hf⟩

theorem C13_cursor_monotone_witness :
    "A(B)|C".toList.length - 2 + 3 ≤ 8 ∧
      ∃ r t, ST LOG_NONE "A(B)|C".toList 8 ⟨⟨2, []⟩, []⟩ = some (r, t) ∧
        S LOG_NONE "A(B)|C".toList 8 ⟨2, []⟩ = some (r, t.st) ∧
        TraceOk "A(B)|C".toList ⟨⟨2, []⟩, []⟩ t ∧ (r = VALID → 2 < t.st.cc) :=
  ⟨by decide,
    (C13_cursor_monotone LOG_NONE "A(B)|C".toList 8 ⟨⟨2, []⟩, []⟩ (by decide)).2.2.2⟩

/-- C14. The cursor never passes the terminator: in the parse of an input of
length `n` from position 0, the final cursor is at most `n`, every index
read through `curr` is at most `n`, and every `next` advances from an index
below `n` whose character is not the terminator, so the cursor is at most
`n` after every advance. -/
theorem C14_cursor_bounded (lg : Int) (input : List Char) :
    ∃ r t, parseT lg input = some (r, t) ∧ parse lg input = some (r, t.st) ∧
      t.st.cc ≤ input.length ∧
      (∀ k, Event.read k ∈ t.trace → k ≤ input.length) ∧
      (∀ k, Event.adv k ∈ t.trace →
        k + 1 ≤ input.length ∧ input.getD k NUL ≠ NUL) := by
  obtain ⟨r, t, hT, hS, hok, -⟩ := ST_total lg input (input.length + 3)
    ⟨⟨0, []⟩, []⟩ (by simp)
  have hp : parse lg input = some (r, t.st) := hS
  have hbound := (Run_callOk lg input _ _ _ ((parse_eq_iff_run lg input _).mp hp)).bound
  simp only [Nat.zero_max] at hbound
  obtain ⟨-, d, hd, -, hr, ha, -⟩ := hok
  simp only [List.nil_append] at hd hr ha
  refine ⟨r, t, hT, hS, hbound, ?_, ?_⟩
  · intro k hk
    rw [hd] at hk
    have := (hr k hk).2
    omega
  · intro k hk
    rw [hd] at hk
    obtain ⟨-, h2, h3⟩ := ha k hk
    refine ⟨by omega, ?_⟩
    intro hn
    rw [hn] at h3
    revert h3
    decide

/-! ## Termination (C15) -/

theorem W_fuel_independent (lg : Int) (input : List Char) (st : State) (f g : Nat)
    (hf : input.length - st.cc + 1 ≤ f) (hg : input.length - st.cc + 1 ≤ g) :
    W lg input f st = W lg input g st := by
  obtain ⟨r, hr⟩ := WRes_total lg input f st hf
  obtain ⟨r', hr'⟩ := WRes_total lg input g st hg
  have h1 := W_mono lg input f st r hr (max f g) (le_max_left _ _)
  have h2 := W_mono lg input g st r' hr' (max f g) (le_max_right _ _)
  rw [hr, hr']
  rw [h1] at h2
  exact h2

theorem runFn_fuel_independent (lg : Int) (input : List Char) (b : Rule) (st : State)
    (f g : Nat) (hf : fuelNeeded input b st.cc ≤ f) (hg : fuelNeeded input b st.cc ≤ g) :
    runFn lg input b f st = runFn lg input b g st := by
  obtain ⟨r, hr⟩ := runFn_total lg input f b st hf
  obtain ⟨r', hr'⟩ := runFn_total lg input g b st hg
  have h1 := runFn_mono lg input b f st r hr (max f g) (le_max_left _ _)
  have h2 := runFn_mono lg input b g st r' hr' (max f g) (le_max_right _ _)
  rw [hr, hr']
  rw [h1] at h2
  exact h2

theorem W_loop_at_end (input : List Char) (f : Nat) (st : State)
    (h : curr input st = NUL) : W_loop input (f + 1) st = some st := by
  rw [W_loop, h, isWCont_NUL]
  rfl

/-- C15. Termination. With fuel of at least the remaining input length plus
three, each of `W`, `E` and `S` returns a result, and the result is the same
for every such fuel, so the parse is a total function of the input. The
recursion is well founded on the remaining input length: the recursive call
of `S` after a separator and the one inside parentheses start at a strictly
smaller remaining length, every iteration of the loop in `W` lowers the
remaining length, and the loop stops on the terminator. -/
theorem C15_termination (lg : Int) (input : List Char) (st : State) (fuel : Nat)
    (hf : input.length - st.cc + 3 ≤ fuel) :
    (∃ r, W lg input fuel st = some r ∧
      ∀ g, input.length - st.cc + 3 ≤ g → W lg input g st = some r) ∧
    (∃ r, E lg input fuel st = some r ∧
      ∀ g, input.length - st.cc + 3 ≤ g → E lg input g st = some r) ∧
    (∃ r, S lg input fuel st = some r ∧
      ∀ g, input.length - st.cc + 3 ≤ g → S lg input g st = some r) ∧
    (∃ r, parse lg input = some r) ∧
    (∀ f st1, E lg input f (_log lg "called S\n".toList st) = some (VALID, st1) →
      (curr input st1 = '|' ∨ curr input st1 = ',') →
      input.length - (next (printf [','] st1)).cc < input.length - st.cc) ∧
    (∀ f st1, W lg input f (printf ['"'] (_log lg "called E\n".toList st)) =
        some (VALID, st1) →
      curr input (printf ['"', ':'] st1) = '(' →
      input.length - (next (printf ['{'] (printf ['"', ':'] st1))).cc <
        input.length - st.cc) ∧
    (isWCont (curr input st) = true →
      input.length - (next (printf [curr input st] st)).cc < input.length - st.cc) ∧
    (curr input st = NUL → ∀ f, W_loop input (f + 1) st = some st) := by
  refine ⟨?_, ?_, ?_, parse_total lg input, ?_, ?_, ?_, ?_⟩
  · obtain ⟨r, hr⟩ := WRes_total lg input fuel st (by omega)
    refine ⟨r, hr, fun g hg => ?_⟩
    rw [← hr]
    exact W_fuel_independent lg input st g fuel (by omega) (by omega)
  · obtain ⟨r, hr⟩ := runFn_total lg input fuel Rule.edge st
      (by simp only [fuelNeeded]; omega)
    refine ⟨r, hr, fun g hg => ?_⟩
    have := runFn_fuel_independent lg input Rule.edge st g fuel
      (by simp only [fuelNeeded]; omega) (by simp only [fuelNeeded]; omega)
    exact this.trans hr
  · obtain ⟨r, hr⟩ := runFn_total lg input fuel Rule.seq st
      (by simp only [fuelNeeded]; omega)
    refine ⟨r, hr, fun g hg => ?_⟩
    have := runFn_fuel_independent lg input Rule.seq st g fuel
      (by simp only [fuelNeeded]; omega) (by simp only [fuelNeeded]; omega)
    exact this.trans hr
  · intro f st1 hE hc
    have hok := Run_callOk lg input _ _ _ (run_of_fuel lg input f Rule.edge _ _ hE)
    have h1 := hok.lt
    have h2 := cc_lt_of_isSep input st1 (by
      simp only [isSep, Bool.or_eq_true, decide_eq_true_eq]
      exact hc)
    simp only [log_cc, next_cc, printf_cc] at h1 ⊢
    omega
  · intro f st1 hW hc
    have hok := WRes_callOk lg input _ _ ⟨f, hW⟩
    have h1 := hok.lt
    have h2 := cc_lt_of_curr_eq input _ _ hc (by decide)
    simp only [log_cc, next_cc, printf_cc] at h1 h2 ⊢
    omega
  · intro hc
    have h2 := cc_lt_of_curr_ne_NUL input st (by
      intro hn
      rw [hn, isWCont_NUL] at hc
      cases hc)
    simp only [next_cc, printf_cc]
    omega
  · intro hc f
    exact W_loop_at_end input f st hc

theorem C15_termination_witness :
    "A(B,C".toList.length - 0 + 3 ≤ 8 ∧
      ∃ r, S LOG_NONE "A(B,C".toList 8 ⟨0, []⟩ = some r ∧
        ∀ g, "A(B,C".toList.length - 0 + 3 ≤ g → S LOG_NONE "A(B,C".toList g ⟨0, []⟩ = some r :=
  ⟨by decide, (C15_termination LOG_NONE "A(B,C".toList ⟨0, []⟩ 8 (by decide)).2.2.1⟩

/-! ## Empty parentheses (C16) -/

theorem WRes_not_start (lg : Int) (input : List Char) (st : State) (r : Int) (s : State)
    (h : WRes lg input st (r, s)) (hs : isWStart (curr input st) = false) :
    r = ERR_INVALID_INPUT := by
  rcases WRes_cases lg input st _ h with ⟨hs', _⟩ | ⟨_, he⟩
  · rw [hs] at hs'
    cases hs'
  · exact (Prod.mk.inj he).1

theorem run_not_start (lg : Int) (input : List Char) :
    ∀ (b : Rule) (st : State) (r : Int × State), Run lg input b st r →
      isWStart (curr input st) = false → r.1 = ERR_INVALID_INPUT := by
  intro b st r h
  induction h with
  | edgeNoIdent hW hr => intro _; rfl
  | edgeNoClose hW hc hS hc2 ih => intro _; rfl
  | edgeInnerFail hW hc hS hr2 ih => intro _; rfl
  | seqFail hE hr ih => intro _; rfl
  | seqMoreFail hE hc hS hr2 ih1 ih2 => intro _; rfl
  | edgeLeaf hW hc =>
    intro hs
    exact absurd (WRes_not_start lg input _ _ _ hW (by simpa using hs)).symm ERR_ne_VALID
  | edgeNode hW hc hS hc2 ih =>
    intro hs
    exact absurd (WRes_not_start lg input _ _ _ hW (by simpa using hs)).symm ERR_ne_VALID
  | seqLast hE hc ih =>
    intro hs
    exact absurd (ih (by simpa using hs)).symm ERR_ne_VALID
  | seqMore hE hc hS ih1 ih2 =>
    intro hs
    exact absurd (ih1 (by simpa using hs)).symm ERR_ne_VALID

theorem WRes_span (lg : Int) (input : List Char) (st s : State)
    (h : WRes lg input st (VALID, s)) (k : Nat) (h1 : st.cc ≤ k) (h2 : k < s.cc) :
    isWCont (input.getD k NUL) = true := by
  rcases WRes_cases lg input st _ h with ⟨hs, he⟩ | ⟨_, he⟩
  · have hs2 : s = _ := (Prod.mk.inj he).2
    rw [hs2] at h2
    simp only at h2
    by_cases hk : k = st.cc
    · rw [hk]
      exact isWCont_of_isWStart _ hs
    · obtain ⟨j, rfl⟩ : ∃ j, k = st.cc + 1 + j := ⟨k - (st.cc + 1), by omega⟩
      exact identRun_getD input (st.cc + 1) j (by omega)
  · exact absurd (Prod.mk.inj he).1 (fun e => ERR_ne_VALID e.symm)

theorem isWCont_ne_open (c : Char) (h : isWCont c = true) : c ≠ '(' := by
  intro hc
  rw [hc] at h
  revert h
  decide

/-- In a successful run every opening parenthesis the cursor passed is
followed by the first character of an identifier. -/
theorem Run_open_followed (lg : Int) (input : List Char) :
    ∀ (b : Rule) (st : State) (r : Int × State), Run lg input b st r → r.1 = VALID →
      ∀ k, st.cc ≤ k → k < r.2.cc → input.getD k NUL = '(' →
        isWStart (input.getD (k + 1) NUL) = true := by
  intro b st r h
  induction h with
  | edgeNoIdent hW hr => intro h; exact absurd h ERR_ne_VALID
  | edgeNoClose hW hc hS hc2 ih => intro h; exact absurd h ERR_ne_VALID
  | edgeInnerFail hW hc hS hr2 ih => intro h; exact absurd h ERR_ne_VALID
  | seqFail hE hr ih => intro h; exact absurd h ERR_ne_VALID
  | seqMoreFail hE hc hS hr2 ih1 ih2 => intro h; exact absurd h ERR_ne_VALID
  | @edgeLeaf st st1 hW hc =>
    intro _ k h1 h2 hk
    have := WRes_span lg input _ _ hW k (by simpa using h1) (by simpa using h2)
    exact absurd hk (isWCont_ne_open _ this)
  | @edgeNode st st1 st2 hW hc hS hc2 ih =>
    intro _ k h1 h2 hk
    simp only [next_cc, printf_cc] at h2
    by_cases hlt : k < st1.cc
    · have := WRes_span lg input _ _ hW k (by simpa using h1) hlt
      exact absurd hk (isWCont_ne_open _ this)
    · by_cases heq : k = st1.cc
      · subst heq
        by_contra hns
        have hfail := run_not_start lg input _ _ _ hS (by
          simp only [curr, next_cc, printf_cc]
          simpa using hns)
        exact ERR_ne_VALID hfail.symm
      · by_cases hlt2 : k < st2.cc
        · exact ih rfl k (by simp only [next_cc, printf_cc]; omega) hlt2 hk
        · have hk2 : k = st2.cc := by omega
          subst hk2
          have : curr input st2 = '(' := hk
          rw [hc2] at this
          exact absurd this (by decide)
  | @seqLast st st1 hE hc ih =>
    intro _ k h1 h2 hk
    exact ih rfl k (by simpa using h1) h2 hk
  | @seqMore st st1 st2 hE hc hS ih1 ih2 =>
    intro _ k h1 h2 hk
    by_cases hlt : k < st1.cc
    · exact ih1 rfl k (by simpa using h1) hlt hk
    · by_cases heq : k = st1.cc
      · subst heq
        have : curr input st1 = '(' := hk
        exact absurd this (ne_paren_of_isSep _ hc)
      · exact ih2 rfl k (by simp only [next_cc, printf_cc]; omega) h2 hk

theorem edge_open_not_start (lg : Int) (id rest : List Char) (hid : isIdentifier id = true)
    (hrest : isWStart (rest.headD NUL) = false) (out : List Char) (r : Int) (s : State)
    (h : Run lg (id ++ '(' :: rest) Rule.edge ⟨0, out⟩ (r, s)) :
    r = ERR_INVALID_INPUT := by
  have key : ∀ (r1 : Int) (st1 : State),
      WRes lg (id ++ '(' :: rest) (printf ['"'] (_log lg "called E\n".toList ⟨0, out⟩))
        (r1, st1) → st1.cc = id.length :=
    fun r1 st1 hW => by
      have := (WRes_on_name lg _ _ id ('(' :: rest) hid (by simp)
        (by simp only [List.headD_cons]; decide) r1 st1 hW).2
      simpa using this
  have hopen : ∀ st1 : State, st1.cc = id.length →
      curr (id ++ '(' :: rest) st1 = '(' := by
    intro st1 h1
    rw [curr_of_drop _ st1 ('(' :: rest) (by rw [h1]; exact List.drop_left _ _)]
    rfl
  have hinner : ∀ st1 : State, st1.cc = id.length →
      isWStart (curr (id ++ '(' :: rest) (next (printf ['{'] (printf ['"', ':'] st1)))) =
        false := by
    intro st1 h1
    rw [curr_of_drop _ _ rest (by simp [h1])]
    exact hrest
  cases h with
  | edgeNoIdent hW hr => rfl
  | edgeNoClose hW hc hS hc2 => rfl
  | edgeInnerFail hW hc hS hr2 => rfl
  | edgeLeaf hW hc => exact absurd (hopen _ (key _ _ hW)) hc
  | edgeNode hW hc hS hc2 =>
    exact absurd (run_not_start lg _ _ _ _ hS (hinner _ (key _ _ hW))).symm ERR_ne_VALID

theorem seq_open_not_start (lg : Int) (id rest : List Char) (hid : isIdentifier id = true)
    (hrest : isWStart (rest.headD NUL) = false) (out : List Char) (r : Int) (s : State)
    (h : Run lg (id ++ '(' :: rest) Rule.seq ⟨0, out⟩ (r, s)) : r = ERR_INVALID_INPUT := by
  have hlog : _log lg "called S\n".toList ⟨0, out⟩ =
      ⟨0, (_log lg "called S\n".toList ⟨0, out⟩).out⟩ := by
    unfold _log printf
    split <;> rfl
  cases h with
  | seqFail hE hr => rfl
  | seqMoreFail hE hc hS hr2 => rfl
  | seqLast hE hc =>
    rw [hlog] at hE
    exact absurd (edge_open_not_start lg id rest hid hrest _ _ _ hE).symm ERR_ne_VALID
  | seqMore hE hc hS =>
    rw [hlog] at hE
    exact absurd (edge_open_not_start lg id rest hid hrest _ _ _ hE).symm ERR_ne_VALID

/-- C16. Empty parentheses are rejected: an identifier followed by `()` gives
`ERR_INVALID_INPUT`, and so does any identifier followed by `(` and then
something that does not start an identifier. More generally, whenever the
cursor has passed an opening parenthesis whose next character is not a
letter or underscore, the result of the parse is `ERR_INVALID_INPUT`. -/
theorem C16_empty_parentheses (lg : Int) :
    (∀ id : List Char, isIdentifier id = true →
      (∃ st, parse lg (id ++ ['(', ')']) = some (ERR_INVALID_INPUT, st)) ∧
      ∃ out, main lg [id ++ ['(', ')']] = some (ERR_INVALID_INPUT, out)) ∧
    (∀ id rest : List Char, isIdentifier id = true → isWStart (rest.headD NUL) = false →
      ∃ st, parse lg (id ++ '(' :: rest) = some (ERR_INVALID_INPUT, st)) ∧
    (∀ (input : List Char) (r : Int) (st : State) (k : Nat),
      parse lg input = some (r, st) → k < st.cc → input.getD k NUL = '(' →
      isWStart (input.getD (k + 1) NUL) = false → r = ERR_INVALID_INPUT) := by
  have gen : ∀ id rest : List Char, isIdentifier id = true →
      isWStart (rest.headD NUL) = false →
      ∃ st, parse lg (id ++ '(' :: rest) = some (ERR_INVALID_INPUT, st) := by
    intro id rest hid hrest
    obtain ⟨⟨r, st⟩, hp⟩ := parse_total lg (id ++ '(' :: rest)
    have hr := seq_open_not_start lg id rest hid hrest [] r st
      ((parse_eq_iff_run _ _ _).mp hp)
    subst hr
    exact ⟨st, hp⟩
  refine ⟨?_, gen, ?_⟩
  · intro id hid
    obtain ⟨st, hp⟩ := gen id [')'] hid (by decide)
    exact ⟨⟨st, hp⟩, main_code_of_parse lg _ [] _ st hp⟩
  · intro input r st k hp hk hopen hns
    have hrun := (parse_eq_iff_run lg input _).mp hp
    rcases (Run_callOk lg input _ _ _ hrun).1 with hv | he
    · exfalso
      have := Run_open_followed lg input _ _ _ hrun hv k (Nat.zero_le _) hk hopen
      rw [hns] at this
      cases this
    · exact he

theorem C16_empty_parentheses_witness :
    isIdentifier "A".toList = true ∧
      main LOG_NONE ["A()".toList] = some (ERR_INVALID_INPUT, "\x7b\"A\":\x7b\"\x7d".toList) ∧
      (∃ st, parse LOG_NONE "A()".toList = some (ERR_INVALID_INPUT, st)) ∧
      ∃ out, main LOG_NONE ["A()".toList] = some (ERR_INVALID_INPUT, out) :=
  ⟨by decide, by decide, (C16_empty_parentheses LOG_NONE).1 "A".toList (by decide)⟩

/-! ## The printed text reveals the result (C17) -/

theorem count_of_isWCont (c : Char) (hc : isWCont c = false) (d : List Char)
    (h : ∀ x ∈ d, isWCont x = true) : d.count c = 0 := by
  rw [List.count_eq_zero]
  intro hmem
  rw [h c hmem] at hc
  cases hc

theorem WRes_plain (input : List Char) (st : State) (r : Int × State)
    (h : WRes LOG_NONE input st r) :
    ∃ d, r.2.out = st.out ++ d ∧ d.count '"' = 0 ∧ d.count '{' = 0 ∧ d.count '}' = 0 := by
  rcases WRes_cases LOG_NONE input st r h with ⟨hs, rfl⟩ | ⟨hs, rfl⟩
  · have hall : ∀ x ∈ curr input st :: identRun input (st.cc + 1), isWCont x = true := by
      intro x hx
      rcases List.mem_cons.mp hx with rfl | hx
      · exact isWCont_of_isWStart _ hs
      · exact identRun_all input _ x hx
    exact ⟨_, by simp only [log_none], count_of_isWCont _ (by decide) _ hall,
      count_of_isWCont _ (by decide) _ hall, count_of_isWCont _ (by decide) _ hall⟩
  · exact ⟨[], by simp, rfl, rfl, rfl⟩

theorem Shape.valid {d : List Char} (h : Shape VALID d) :
    d.count '"' % 2 = 0 ∧ d.count '{' = d.count '}' := h.1 rfl

theorem Shape.invalid {r : Int} {d : List Char} (h : Shape r d) (hr : r ≠ VALID) :
    d.count '}' ≤ d.count '{' ∧ (d.count '"' % 2 = 1 ∨ d.count '}' < d.count '{') :=
  h.2 hr

theorem shape_valid (d : List Char) (h1 : d.count '"' % 2 = 0)
    (h2 : d.count '{' = d.count '}') : Shape VALID d :=
  ⟨fun _ => ⟨h1, h2⟩, fun h => absurd rfl h⟩

theorem shape_err (d : List Char) (h1 : d.count '}' ≤ d.count '{')
    (h2 : d.count '"' % 2 = 1 ∨ d.count '}' < d.count '{') : Shape ERR_INVALID_INPUT d :=
  ⟨fun h => absurd h ERR_ne_VALID, fun _ => ⟨h1, h2⟩⟩

theorem Run_shape (input : List Char) :
    ∀ (b : Rule) (st : State) (r : Int × State), Run LOG_NONE input b st r →
      ∃ d, r.2.out = st.out ++ d ∧ Shape r.1 d := by
  intro b st r h
  induction h with
  | edgeNoIdent hW hr =>
    obtain ⟨dw, hw, q, o, c⟩ := WRes_plain input _ _ hW
    simp only [log_none, printf_out] at hw
    refine ⟨'"' :: dw, by simp [hw], ?_⟩
    apply shape_err <;> simp [List.count_cons, q, o, c]
  | edgeLeaf hW hc =>
    obtain ⟨dw, hw, q, o, c⟩ := WRes_plain input _ _ hW
    simp only [log_none, printf_out] at hw
    refine ⟨'"' :: (dw ++ ['"', ':', '{', '}']), by simp [hw], ?_⟩
    apply shape_valid <;> simp [List.count_cons, List.count_append, q, o, c]
  | edgeNode hW hc hS hc2 ih =>
    obtain ⟨dw, hw, q, o, c⟩ := WRes_plain input _ _ hW
    obtain ⟨ds, hs, hshape⟩ := ih
    obtain ⟨q2, oc2⟩ := hshape.valid
    simp only [log_none, printf_out, next_out] at hw hs
    refine ⟨'"' :: (dw ++ '"' :: ':' :: '{' :: (ds ++ ['}'])), by simp [hs, hw], ?_⟩
    apply shape_valid
    · simp [List.count_cons, List.count_append, q, o, c]
      omega
    · simp [List.count_cons, List.count_append, q, o, c]
      omega
  | edgeNoClose hW hc hS hc2 ih =>
    obtain ⟨dw, hw, q, o, c⟩ := WRes_plain input _ _ hW
    obtain ⟨ds, hs, hshape⟩ := ih
    obtain ⟨q2, oc2⟩ := hshape.valid
    simp only [log_none, printf_out, next_out] at hw hs
    refine ⟨'"' :: (dw ++ '"' :: ':' :: '{' :: ds), by simp [hs, hw], ?_⟩
    apply shape_err
    · simp [List.count_cons, List.count_append, q, o, c]
      omega
    · right
      simp [List.count_cons, List.count_append, q, o, c]
      omega
  | edgeInnerFail hW hc hS hr2 ih =>
    obtain ⟨dw, hw, q, o, c⟩ := WRes_plain input _ _ hW
    obtain ⟨ds, hs, hshape⟩ := ih
    obtain ⟨le2, -⟩ := hshape.invalid hr2
    simp only [log_none, printf_out, next_out] at hw hs
    refine ⟨'"' :: (dw ++ '"' :: ':' :: '{' :: ds), by simp [hs, hw], ?_⟩
    apply shape_err
    · simp [List.count_cons, List.count_append, q, o, c]
      omega
    · right
      simp [List.count_cons, List.count_append, q, o, c]
      omega
  | seqFail hE hr ih =>
    obtain ⟨de, he, hshape⟩ := ih
    obtain ⟨le1, alt1⟩ := hshape.invalid hr
    simp only [log_none] at he
    exact ⟨de, he, shape_err de le1 alt1⟩
  | seqLast hE hc ih =>
    obtain ⟨de, he, hshape⟩ := ih
    simp only [log_none] at he
    exact ⟨de, he, hshape⟩
  | seqMore hE hc hS ih1 ih2 =>
    obtain ⟨de, he, hshape1⟩ := ih1
    obtain ⟨ds, hs, hshape2⟩ := ih2
    obtain ⟨q1, oc1⟩ := hshape1.valid
    obtain ⟨q2, oc2⟩ := hshape2.valid
    simp only [log_none, printf_out, next_out] at he hs
    refine ⟨de ++ ',' :: ds, by simp [hs, he], ?_⟩
    apply shape_valid
    · simp [List.count_cons, List.count_append]
      omega
    · simp [List.count_cons, List.count_append]
      omega
  | seqMoreFail hE hc hS hr2 ih1 ih2 =>
    obtain ⟨de, he, hshape1⟩ := ih1
    obtain ⟨ds, hs, hshape2⟩ := ih2
    obtain ⟨q1, oc1⟩ := hshape1.valid
    obtain ⟨le2, alt2⟩ := hshape2.invalid hr2
    simp only [log_none, printf_out, next_out] at he hs
    refine ⟨de ++ ',' :: ds, by simp [hs, he], ?_⟩
    apply shape_err
    · simp [List.count_cons, List.count_append]
      omega
    · rcases alt2 with h | h
      · left
        simp [List.count_cons, List.count_append]
        omega
      · right
        simp [List.count_cons, List.count_append]
        omega

/-- C17. The printed text reveals success: for every input the program
prints `{`, the emission of `S` and `}`, and the result is `VALID` exactly
when that text has an even number of double quotes and as many `{` as `}`.
On failure it has an odd number of double quotes or more `{` than `}`. -/
theorem C17_output_reveals_result (input : List Char) :
    ∃ r st out, parse LOG_NONE input = some (r, st) ∧
      main LOG_NONE [input] = some (r, out) ∧ out = '{' :: (st.out ++ ['}']) ∧
      (r = VALID ↔ (out.count '"' % 2 = 0 ∧ out.count '{' = out.count '}')) ∧
      (r ≠ VALID → (out.count '"' % 2 = 1 ∨ out.count '}' < out.count '{')) := by
  obtain ⟨⟨r, st⟩, hp⟩ := parse_total LOG_NONE input
  obtain ⟨d, hd, hshape⟩ := Run_shape input _ _ _ ((parse_eq_iff_run _ _ _).mp hp)
  simp only [List.nil_append] at hd
  refine ⟨r, st, _, hp, main_none_of_parse input [] r st hp, rfl, ?_, ?_⟩
  · rw [hd]
    constructor
    · intro hr
      obtain ⟨q, oc⟩ := hshape.1 hr
      constructor
      · simp [List.count_cons, List.count_append]
        omega
      · simp [List.count_cons, List.count_append]
        omega
    · intro hout
      by_contra hr
      obtain ⟨le, alt⟩ := hshape.2 hr
      simp [List.count_cons, List.count_append] at hout
      omega
  · intro hr
    rw [hd]
    obtain ⟨le, alt⟩ := hshape.2 hr
    rcases alt with h | h
    · left
      simp [List.count_cons, List.count_append]
      omega
    · right
      simp [List.count_cons, List.count_append]
      omega

/-! ## The translation can be read back (C18) -/

theorem untranslate_pair (rest : List Char) :
    untranslate ('{' :: '}' :: rest) = untranslate rest := by
  simp [untranslate]

theorem untranslate_cons (c : Char) (tl : List Char)
    (h : ¬ (c = '{' ∧ tl.head? = some '}')) :
    untranslate (c :: tl) = unChar c ++ untranslate tl := by
  cases tl with
  | nil => simp [untranslate]
  | cons d rest =>
    have : ¬ (c = '{' ∧ d = '}') := by simpa using h
    simp only [untranslate, this, if_false]

theorem unChar_of_isWCont (c : Char) (h : isWCont c = true) : unChar c = [c] := by
  have h1 : c ≠ '"' := fun e => by rw [e] at h; revert h; decide
  have h2 : c ≠ ':' := fun e => by rw [e] at h; revert h; decide
  have h3 : c ≠ '{' := fun e => by rw [e] at h; revert h; decide
  have h4 : c ≠ '}' := fun e => by rw [e] at h; revert h; decide
  simp [unChar, h1, h2, h3, h4]

theorem untranslate_name (name : List Char) (h : ∀ c ∈ name, isWCont c = true)
    (rest : List Char) : untranslate (name ++ rest) = name ++ untranslate rest := by
  induction name with
  | nil => rfl
  | cons c cs ih =>
    have hc : isWCont c = true := h c (List.mem_cons_self _ _)
    have hne : c ≠ '{' := fun e => by rw [e] at hc; revert hc; decide
    rw [List.cons_append, untranslate_cons c _ (fun hh => hne hh.1), unChar_of_isWCont c hc,
      ih (fun x hx => h x (List.mem_cons_of_mem _ hx))]
    rfl

theorem normSep_name (name : List Char) (h : ∀ c ∈ name, isWCont c = true) :
    normSep name = name := by
  unfold normSep
  conv_rhs => rw [← List.map_id name]
  apply List.map_congr_left
  intro c hc
  have hw := h c hc
  have hne : c ≠ '|' := fun e => by rw [e] at hw; revert hw; decide
  simp [normChar, hne]

theorem isIdentifier_all (name : List Char) (h : isIdentifier name = true) :
    ∀ c ∈ name, isWCont c = true := by
  cases name with
  | nil => simp [isIdentifier] at h
  | cons c cs =>
    rw [isIdentifier_cons] at h
    intro x hx
    rcases List.mem_cons.mp hx with rfl | hx
    · exact isWCont_of_isWStart _ h.1
    · exact h.2 x hx

theorem Edge_translate_head (e : Edge) : ∃ t, e.translate = '"' :: t := by
  cases e with
  | leaf name => exact ⟨name ++ ['"', ':', '{', '}'], by simp only [Edge.translate]⟩
  | node name fr =>
    exact ⟨name ++ '"' :: ':' :: '{' :: (fr.translate ++ ['}']), by simp only [Edge.translate]⟩

theorem Forest_translate_head (fr : Forest) : ∃ t, fr.translate = '"' :: t := by
  cases fr with
  | single e =>
    obtain ⟨t, ht⟩ := Edge_translate_head e
    exact ⟨t, by simp only [Forest.translate, ht]⟩
  | cons e pipe tl =>
    obtain ⟨t, ht⟩ := Edge_translate_head e
    exact ⟨t ++ ',' :: tl.translate, by simp only [Forest.translate, ht, List.cons_append]⟩

theorem normChar_sepChar (pipe : Bool) : normChar (sepChar pipe) = ',' := by
  cases pipe <;> decide

mutual

theorem Edge_untranslate :
    ∀ (e : Edge), e.wellFormed = true → ∀ rest : List Char,
      untranslate (e.translate ++ rest) = normSep e.render ++ untranslate rest
  | Edge.leaf name, hwf, rest => by
    simp only [Edge.wellFormed] at hwf
    have hall := isIdentifier_all name hwf
    simp only [Edge.translate, Edge.render, List.cons_append, List.append_assoc]
    rw [untranslate_cons '"' _ (fun hh => absurd hh.1 (by decide)),
      untranslate_name name hall,
      untranslate_cons '"' _ (fun hh => absurd hh.1 (by decide)),
      untranslate_cons ':' _ (fun hh => absurd hh.1 (by decide)),
      untranslate_pair, normSep_name name hall]
    rfl
  | Edge.node name fr, hwf, rest => by
    simp only [Edge.wellFormed, Bool.and_eq_true] at hwf
    have hall := isIdentifier_all name hwf.1
    obtain ⟨t, ht⟩ := Forest_translate_head fr
    have ih := Forest_untranslate fr hwf.2 ('}' :: rest)
    simp only [Edge.translate, Edge.render, List.cons_append, List.append_assoc,
      List.nil_append]
    rw [untranslate_cons '"' _ (fun hh => absurd hh.1 (by decide)),
      untranslate_name name hall,
      untranslate_cons '"' _ (fun hh => absurd hh.1 (by decide)),
      untranslate_cons ':' _ (fun hh => absurd hh.1 (by decide)),
      untranslate_cons '{' _ (fun hh => by
        rw [ht] at hh
        exact absurd hh.2 (by simp)),
      ih, untranslate_cons '}' _ (fun hh => absurd hh.1 (by decide))]
    simp only [normSep, List.map_append, List.map_cons, List.map_nil]
    rw [← normSep, ← normSep, normSep_name name hall]
    simp [unChar, normChar]


theorem Forest_untranslate :
    ∀ (fr : Forest), fr.wellFormed = true → ∀ rest : List Char,
      untranslate (fr.translate ++ rest) = normSep fr.render ++ untranslate rest
  | Forest.single e, hwf, rest => by
    simp only [Forest.wellFormed] at hwf
    simp only [Forest.translate, Forest.render]
    exact Edge_untranslate e hwf rest
  | Forest.cons e pipe tl, hwf, rest => by
    simp only [Forest.wellFormed, Bool.and_eq_true] at hwf
    simp only [Forest.translate, Forest.render, List.append_assoc, List.cons_append]
    rw [Edge_untranslate e hwf.1, untranslate_cons ',' _ (fun hh => absurd hh.1 (by decide)),
      Forest_untranslate tl hwf.2]
    simp only [normSep, List.map_append, List.map_cons, normChar_sepChar]
    simp [unChar]

end

theorem parse_prefix_untranslate (input : List Char) (st : State)
    (h : parse LOG_NONE input = some (VALID, st)) :
    normSep (input.take st.cc) = untranslate st.out := by
  obtain ⟨fr, hwf, hd, hcc, hout⟩ := parse_sound input st h
  have htake : input.take st.cc = fr.render := by
    rw [hcc]
    conv_lhs => rw [hd]
    exact List.take_left _ _
  have := Forest_untranslate fr hwf []
  simp only [List.append_nil] at this
  rw [htake, hout, this]
  simp [untranslate]

/-- C18. The translation is lossless up to the choice of separator: if the
parse returns `VALID` on two inputs and emits the same text for both, the
consumed prefixes of the two inputs are equal once every pipe is replaced by
a comma. -/
theorem C18_translation_lossless (i1 i2 : List Char) (s1 s2 : State)
    (h1 : parse LOG_NONE i1 = some (VALID, s1)) (h2 : parse LOG_NONE i2 = some (VALID, s2))
    (hout : s1.out = s2.out) :
    normSep (i1.take s1.cc) = normSep (i2.take s2.cc) := by
  rw [parse_prefix_untranslate i1 s1 h1, parse_prefix_untranslate i2 s2 h2, hout]

theorem C18_translation_lossless_witness :
    parse LOG_NONE "A(B|C))".toList =
        some (VALID, ⟨6, "\"A\":\x7b\"B\":\x7b\x7d,\"C\":\x7b\x7d\x7d".toList⟩) ∧
      parse LOG_NONE "A(B,C)#".toList =
        some (VALID, ⟨6, "\"A\":\x7b\"B\":\x7b\x7d,\"C\":\x7b\x7d\x7d".toList⟩) ∧
      normSep ("A(B|C))".toList.take 6) = normSep ("A(B,C)#".toList.take 6) :=
  ⟨by decide, by decide,
    C18_translation_lossless "A(B|C))".toList "A(B,C)#".toList
      ⟨6, "\"A\":\x7b\"B\":\x7b\x7d,\"C\":\x7b\x7d\x7d".toList⟩
      ⟨6, "\"A\":\x7b\"B\":\x7b\x7d,\"C\":\x7b\x7d\x7d".toList⟩ (by decide) (by decide) rfl⟩

end GraphParser
